import Mathlib

/-!
# Verification of the varnish_request_exporter log→metrics pipeline

Shallow embedding of `varnish_request_exporter.go`: the path-mapping loader
(`parseMappings`), the `varnishncsa` format/query construction, the ingest
loop with its Prometheus counter/histogram bookkeeping, and — modelled from
the specification where the decoder source is absent — the line decoder and
observation builder (`parseMessage`).

Go's `regexp` calls (`MustCompile`, `ReplaceAllString`, `Split`) are embedded
by a small executable regular-expression engine over `List Char` with Go's
leftmost, backtracking-priority match semantics. All recursion is structural
(fuel arguments carry exact bounds), so every definition evaluates by kernel
reduction on concrete inputs.
-/

namespace VRE

/-- Go's whitespace class (space, tab, newline, form feed, carriage return). -/
def goIsSpace (c : Char) : Bool :=
  c = ' ' || c = '\t' || c = '\n' || c = '\x0c' || c = '\r'

/-- Regular-expression abstract syntax, the subset of Go `regexp` syntax the
exporter's patterns use: literals, dot, character classes (digit, space,
bracket ranges), anchors, concatenation, alternation, Kleene star and
capture groups (plus and question mark are desugared at parse time). -/
inductive Regex where
  | eps
  | lit (c : Char)
  | dot
  | cls (neg : Bool) (ranges : List (Char × Char))
  | bol
  | eol
  | cat (a b : Regex)
  | alt (a b : Regex)
  | star (a : Regex)
  | group (idx : Nat) (a : Regex)
  deriving Repr, DecidableEq

/-- Capture environment: group index ↦ most recent captured text. -/
abbrev Caps := List (Nat × List Char)

def Caps.empty : Caps := []

def Caps.set (caps : Caps) (n : Nat) (v : List Char) : Caps := (n, v) :: caps

def Caps.get : Caps → Nat → List Char
  | [], _ => []
  | (m, v) :: rest, n => if m = n then v else Caps.get rest n

/-- Does `c` fall in one of the class ranges? -/
def inRanges (ranges : List (Char × Char)) (c : Char) : Bool :=
  ranges.any fun r => decide (r.1 ≤ c) && decide (c ≤ r.2)

/-- Iterated matching of a star's body with Go/Perl greedy priority (longer
first); only iterations that consume input are taken, so fuel equal to the
suffix length is exact, never truncating a real match. `mOne` is the matcher
of the star's body. -/
def starIter (mOne : Nat → List Char → Caps → List (Nat × Caps)) :
    Nat → Nat → List Char → Caps → List (Nat × Caps)
  | 0, _, _, caps => [(0, caps)]
  | fuel + 1, pos, rem, caps =>
    (((mOne pos rem caps).filter (fun p => p.1 ≠ 0)).flatMap
      (fun p =>
        (starIter mOne fuel (pos + p.1) (rem.drop p.1) p.2).map
          (fun q => (p.1 + q.1, q.2)))) ++ [(0, caps)]

/-- All ways `re` can match a prefix of `rem` (the suffix of the subject
string starting at absolute position `pos`), as `(consumed, captures)`
pairs in backtracking priority order: the head is the match a Perl-style
(and Go, for leftmost-first purposes) engine commits to. -/
def mtch : Regex → Nat → List Char → Caps → List (Nat × Caps)
  | .eps, _, _, caps => [(0, caps)]
  | .lit c, _, rem, caps =>
    match rem with
    | [] => []
    | x :: _ => if x = c then [(1, caps)] else []
  | .dot, _, rem, caps =>
    match rem with
    | [] => []
    | x :: _ => if x = '\n' then [] else [(1, caps)]
  | .cls neg ranges, _, rem, caps =>
    match rem with
    | [] => []
    | x :: _ => if (inRanges ranges x).xor neg then [(1, caps)] else []
  | .bol, pos, _, caps => if pos = 0 then [(0, caps)] else []
  | .eol, _, rem, caps => if rem = [] then [(0, caps)] else []
  | .cat a b, pos, rem, caps =>
    (mtch a pos rem caps).flatMap fun p =>
      (mtch b (pos + p.1) (rem.drop p.1) p.2).map fun q => (p.1 + q.1, q.2)
  | .alt a b, pos, rem, caps => mtch a pos rem caps ++ mtch b pos rem caps
  | .star a, pos, rem, caps =>
    starIter (fun pos' rem' caps' => mtch a pos' rem' caps') rem.length pos rem caps
  | .group n a, pos, rem, caps =>
    (mtch a pos rem caps).map fun p => (p.1, p.2.set n (rem.take p.1))

/-- The match the engine commits to at a given position, if any. -/
def firstMatch (re : Regex) (pos : Nat) (rem : List Char) : Option (Nat × Caps) :=
  (mtch re pos rem Caps.empty).head?

/-- One token of a Go replacement template: a literal character or a
capture-group reference. -/
inductive TmplItem where
  | ch (c : Char)
  | ref (n : Nat)
  deriving Repr, DecidableEq

/-- Parse Go's `Expand` replacement syntax (fuel-structural; fuel bounds the
input length exactly): a dollar followed by a maximal run of name characters
references that group (a non-numeric name expands to nothing, modelled as a
reference to an unset group), a double dollar is a literal dollar, a lone
trailing dollar is literal. -/
def parseTmplF : Nat → List Char → List TmplItem
  | 0, _ => []
  | _ + 1, [] => []
  | fuel + 1, '$' :: rest =>
    match rest with
    | [] => [.ch '$']
    | '$' :: rest' => .ch '$' :: parseTmplF fuel rest'
    | '{' :: rest' =>
      let name := rest'.takeWhile (fun c => c ≠ '}')
      let rest'' := (rest'.dropWhile (fun c => c ≠ '}')).drop 1
      (if name ≠ [] && name.all Char.isDigit then
        [TmplItem.ref (String.mk name).toNat!]
       else [TmplItem.ref 1000000]) ++ parseTmplF fuel rest''
    | c :: _ =>
      if c.isAlphanum || c = '_' then
        let name := rest.takeWhile fun x => x.isAlphanum || x = '_'
        let rest' := rest.dropWhile fun x => x.isAlphanum || x = '_'
        (if name.all Char.isDigit then [TmplItem.ref (String.mk name).toNat!]
         else [TmplItem.ref 1000000]) ++ parseTmplF fuel rest'
      else .ch '$' :: parseTmplF fuel rest
  | fuel + 1, c :: rest => .ch c :: parseTmplF fuel rest

def parseTmpl (l : List Char) : List TmplItem := parseTmplF l.length l

/-- Instantiate a parsed template with the captures of one match. -/
def expandTmpl (items : List TmplItem) (caps : Caps) : List Char :=
  items.flatMap fun it =>
    match it with
    | .ch c => [c]
    | .ref n => caps.get n

/-- The scan of Go's `ReplaceAllString` (fuel-structural; fuel stays one
above the suffix length, so it is exact): walk the subject left to right; at
each position take the engine's match if there is one, emit the expanded
replacement and skip the matched text (advancing one character after an
empty match), otherwise copy the character; a final empty match at the end
of the subject is also replaced. -/
def scanR (re : Regex) (items : List TmplItem) : Nat → Nat → List Char → List Char
  | 0, _, _ => []
  | _ + 1, pos, [] =>
    match firstMatch re pos [] with
    | some (_, caps) => expandTmpl items caps
    | none => []
  | fuel + 1, pos, c :: rest =>
    match firstMatch re pos (c :: rest) with
    | none => c :: scanR re items fuel (pos + 1) rest
    | some (0, caps) => expandTmpl items caps ++ c :: scanR re items fuel (pos + 1) rest
    | some (k + 1, caps) =>
      expandTmpl items caps ++ scanR re items fuel (pos + k + 1) (rest.drop k)

/-- `re.ReplaceAllString(s, repl)` of Go's `regexp` package. -/
def replaceAll (re : Regex) (repl : String) (s : String) : String :=
  String.mk (scanR re (parseTmpl repl.data) (s.data.length + 1) 0 s.data)

/-! ## Pattern compilation (Go `regexp.MustCompile` on the syntax subset) -/

def digitRanges : List (Char × Char) := [('0', '9')]

/-- Go whitespace class ranges: tab–newline, form feed–carriage return, space. -/
def spaceRanges : List (Char × Char) := [('\t', '\n'), ('\x0c', '\r'), (' ', ' ')]

def wordRanges : List (Char × Char) := [('0', '9'), ('A', 'Z'), ('_', '_'), ('a', 'z')]

/-- Resolve an escaped character outside of the character-class shorthands;
unknown alphanumeric escapes (including RE2's rejected backreferences) fail,
escaped punctuation is that literal character. -/
def escChar (c : Char) : Option Char :=
  if c = 'n' then some '\n'
  else if c = 't' then some '\t'
  else if c = 'r' then some '\r'
  else if c = 'f' then some '\x0c'
  else if c = 'v' then some '\x0b'
  else if c = 'a' then some '\x07'
  else if c.isAlphanum then none
  else some c

/-- One single-character item of a bracket class (possibly escaped). -/
def classAtom : List Char → Option (Char × List Char)
  | '\\' :: e :: rest => (escChar e).map fun c => (c, rest)
  | '\\' :: [] => none
  | ']' :: _ => none
  | [] => none
  | c :: rest => some (c, rest)

/-- Items of a bracket class up to the closing bracket: plain characters,
ranges, the digit/space/word shorthands; empty or unclosed classes fail. -/
def parseClassItemsF : Nat → List (Char × Char) → List Char →
    Option (List (Char × Char) × List Char)
  | 0, _, _ => none
  | _ + 1, _, [] => none
  | fuel + 1, acc, s =>
    match s with
    | ']' :: rest => if acc.isEmpty then none else some (acc, rest)
    | '\\' :: 'd' :: rest => parseClassItemsF fuel (acc ++ digitRanges) rest
    | '\\' :: 's' :: rest => parseClassItemsF fuel (acc ++ spaceRanges) rest
    | '\\' :: 'w' :: rest => parseClassItemsF fuel (acc ++ wordRanges) rest
    | _ =>
      match classAtom s with
      | none => none
      | some (c1, rest1) =>
        match rest1 with
        | '-' :: ']' :: rest2 => -- trailing hyphen is literal, class then closes
          if (acc ++ [(c1, c1), ('-', '-')]).isEmpty then none
          else some (acc ++ [(c1, c1), ('-', '-')], rest2)
        | '-' :: rest2 =>
          match classAtom rest2 with
          | none => none
          | some (c2, rest3) =>
            if c1 ≤ c2 then parseClassItemsF fuel (acc ++ [(c1, c2)]) rest3 else none
        | _ => parseClassItemsF fuel (acc ++ [(c1, c1)]) rest1

/-- A bracket class after its opening bracket, with optional negation. -/
def parseClass : List Char → Option (Regex × List Char)
  | '^' :: rest =>
    (parseClassItemsF rest.length [] rest).map fun p => (.cls true p.1, p.2)
  | s => (parseClassItemsF s.length [] s).map fun p => (.cls false p.1, p.2)

/-- Postfix repetition suffix handling after an operator: an optional
non-greedy marker (whose priority order this model does not distinguish),
with Go's nested-repetition errors. -/
def postOp (r : Regex) : List Char → Option (Regex × List Char)
  | '?' :: '*' :: _ => none
  | '?' :: '+' :: _ => none
  | '?' :: '?' :: _ => none
  | '?' :: rest => some (r, rest)
  | '*' :: _ => none
  | '+' :: _ => none
  | rest => some (r, rest)

/-- Apply a postfix `*`, `+` or `?` operator to a parsed atom. -/
def parseRep (a : Regex) : List Char → Option (Regex × List Char)
  | '*' :: rest => postOp (.star a) rest
  | '+' :: rest => postOp (.cat a (.star a)) rest
  | '?' :: rest => postOp (.alt a .eps) rest
  | rest => some (a, rest)

/-- An escape sequence at the atom level: class shorthands or a single
character. -/
def classAtomEsc : List Char → Option (Regex × List Char)
  | [] => none
  | 'd' :: rest => some (.cls false digitRanges, rest)
  | 'D' :: rest => some (.cls true digitRanges, rest)
  | 's' :: rest => some (.cls false spaceRanges, rest)
  | 'S' :: rest => some (.cls true spaceRanges, rest)
  | 'w' :: rest => some (.cls false wordRanges, rest)
  | 'W' :: rest => some (.cls true wordRanges, rest)
  | c :: rest => (escChar c).map fun c' => (.lit c', rest)

mutual

/-- Alternation level of the pattern grammar.  The `Nat` result component
threads the capture-group counter. -/
def parseAltF : Nat → Nat → List Char → Option (Regex × Nat × List Char)
  | 0, _, _ => none
  | fuel + 1, g, s =>
    match parseCatF fuel g s with
    | none => none
    | some (r, g', rest) =>
      match rest with
      | '|' :: rest' =>
        match parseAltF fuel g' rest' with
        | none => none
        | some (r2, g'', rest'') => some (.alt r r2, g'', rest'')
      | _ => some (r, g', rest)

/-- Concatenation level: a run of repeated atoms up to `|`, `)` or the end. -/
def parseCatF : Nat → Nat → List Char → Option (Regex × Nat × List Char)
  | 0, _, _ => none
  | fuel + 1, g, s =>
    match s with
    | [] => some (.eps, g, [])
    | ')' :: _ => some (.eps, g, s)
    | '|' :: _ => some (.eps, g, s)
    | _ =>
      match parseAtomF fuel g s with
      | none => none
      | some (a, g', rest) =>
        match parseRep a rest with
        | none => none
        | some (a', rest') =>
          match parseCatF fuel g' rest' with
          | none => none
          | some (b, g'', rest'') => some (.cat a' b, g'', rest'')

/-- Atom level: group, class, dot, anchors, escape or literal.  Go's `(?`
group flags are outside the modelled subset and fail. -/
def parseAtomF : Nat → Nat → List Char → Option (Regex × Nat × List Char)
  | 0, _, _ => none
  | fuel + 1, g, s =>
    match s with
    | [] => none
    | '(' :: '?' :: _ => none
    | '(' :: rest =>
      match parseAltF fuel (g + 1) rest with
      | some (r, g', ')' :: rest') => some (.group g r, g', rest')
      | _ => none
    | '[' :: rest => (parseClass rest).map fun p => (p.1, g, p.2)
    | '.' :: rest => some (.dot, g, rest)
    | '^' :: rest => some (.bol, g, rest)
    | '$' :: rest => some (.eol, g, rest)
    | '\\' :: rest => (classAtomEsc rest).map fun p => (p.1, g, p.2)
    | '*' :: _ => none
    | '+' :: _ => none
    | '?' :: _ => none
    | ')' :: _ => none
    | '|' :: _ => none
    | c :: rest => some (.lit c, g, rest)

end

/-- `regexp.Compile`: parse a whole pattern; leftover input (an unmatched
closing parenthesis) is an error; the compiled value is wrapped as capture
group 0, the whole match. -/
def compile (pattern : String) : Option Regex :=
  match parseAltF (4 * pattern.data.length + 12) 1 pattern.data with
  | some (r, _, []) => some (.group 0 r)
  | _ => none

/-! ## Go `Regexp.Split(s, 2)` for a pattern that never matches empty -/

/-- Leftmost match over the whole subject: position and length of the first
position where the engine matches (fuel-structural, fuel exact). -/
def findLeftF (re : Regex) : Nat → Nat → List Char → Option (Nat × Nat)
  | 0, _, _ => none
  | _ + 1, pos, [] =>
    match firstMatch re pos [] with
    | some (k, _) => some (pos, k)
    | none => none
  | fuel + 1, pos, s =>
    match firstMatch re pos s with
    | some (k, _) => some (pos, k)
    | none => findLeftF re fuel (pos + 1) (s.drop 1)

/-- `re.Split(s, 2)` of Go's `regexp` package, for patterns (such as the
whitespace splitter) whose matches are never empty: at most one split, at
the leftmost match. -/
def goSplit2 (re : Regex) (s : String) : List String :=
  match findLeftF re (s.data.length + 1) 0 s.data with
  | none => [s]
  | some (p, k) => [String.mk (s.data.take p), String.mk (s.data.drop (p + k))]

/-! ## bufio.ScanLines -/

def splitLinesAux (acc : List Char) : List Char → List (List Char)
  | [] => [acc.reverse]
  | c :: rest =>
    if c = '\n' then acc.reverse :: splitLinesAux [] rest
    else splitLinesAux (c :: acc) rest

/-- `bufio.ScanLines` tokenisation: split on newline, drop the empty token a
trailing newline would produce, strip one trailing carriage return per
line. -/
def splitLines (s : String) : List String :=
  if s.data = [] then []
  else
    let parts := splitLinesAux [] s.data
    let parts := if s.data.getLast? = some '\n' then parts.dropLast else parts
    parts.map fun l =>
      String.mk (if l.getLast? = some '\r' then l.dropLast else l)



/-! ## parseMappings (varnish_request_exporter.go lines 176–208) -/

/-- The compiled rewrite rule of the exporter (`type pathMapping struct`). -/
structure pathMapping where
  Pattern : Regex
  Replacement : String
  deriving Repr, DecidableEq

/-- A configuration-time failure: the text of the rule whose pattern did not
compile (`regexp.MustCompile`'s panic names the pattern). -/
abbrev ConfigError := String

/-- `commentRegexp := regexp.MustCompile("(#.*|^\\s+|\\s+$)")`. -/
def commentRegexp : Regex := (compile "(#.*|^\\s+|\\s+$)").getD .eps

/-- `splitRegexp := regexp.MustCompile("\\s+")`. -/
def splitRegexp : Regex := (compile "\\s+").getD .eps

/-- `commentRegexp.ReplaceAllString(line, "")`. -/
def stripLine (line : String) : String := replaceAll commentRegexp "" line

/-- The textual rule(s) one scanned line contributes: none when the stripped
line is empty, otherwise the one- or two-column split (`splitRegexp.Split`
with limit 2). -/
def lineRule (line : String) : List (String × String) :=
  let l := stripLine line
  if l = "" then []
  else
    match goSplit2 splitRegexp l with
    | [p] => [(p, "")]
    | [p, r] => [(p, r)]
    | _ => []

/-- All textual rules of a mappings file, in scan order. -/
def parseMappingsText (content : String) : List (String × String) :=
  (splitLines content).flatMap lineRule

/-- Compile textual rules in order; the first pattern `regexp.MustCompile`
rejects aborts the load (its panic unwinds `main` before the ingest loop
starts), modelled as the error value naming that pattern. -/
def compileRules : List (String × String) → Except ConfigError (List pathMapping)
  | [] => .ok []
  | (p, r) :: rest =>
    match compile p with
    | none => .error p
    | some re =>
      match compileRules rest with
      | .error e => .error e
      | .ok ms => .ok (⟨re, r⟩ :: ms)

/-- `parseMappings` applied to the text of an already-opened mappings file. -/
def parseMappings (content : String) : Except ConfigError (List pathMapping) :=
  compileRules (parseMappingsText content)

/-- `parseMappings(mappingsFile)` including the empty-name short circuit and
the `os.Open` step; `fs` models the file system, and an open failure is
`log.Fatal` (process exit before the loop), modelled as an error. -/
def parseMappingsFile (mappingsFile : String)
    (fs : String → Except String String) : Except ConfigError (List pathMapping) :=
  if mappingsFile = "" then .ok []
  else
    match fs mappingsFile with
    | .error e => .error e
    | .ok content => parseMappings content

/-! ## varnishncsa command construction (lines 210–242) -/

/-- `buildVslQuery`: the user query, conjoined with a host filter when a
virtual host is pinned via `-varnish.host`. -/
def buildVslQuery (userQuery httpHost : String) : String :=
  let query := userQuery
  if httpHost ≠ "" then
    (if query ≠ "" then query ++ " and " else query) ++
      "ReqHeader:host eq \"" ++ httpHost ++ "\""
  else query

/-- `buildVarnishNCSAFormat`: the fixed field layout handed to `varnishncsa`;
it depends only on the first-byte and sizes flags. -/
def buildVarnishNCSAFormat (beFirstByte sizes : Bool) : String :=
  let format := "method=\"%m\" status=%s path=\"%U\" cache=\"%{Varnish:hitmiss}x\" host=\"%{host}i\" time:%D"
  let format := if beFirstByte then format ++ " time_firstbyte:%{Varnish:time_firstbyte}x" else format
  if sizes then format ++ " respsize:%b" else format

/-- `buildVarnishNCSAArgs`. -/
def buildVarnishNCSAArgs (vslQuery format inst : String) : List String :=
  ["-F", format] ++ (if vslQuery ≠ "" then ["-q", vslQuery] else []) ++
    (if inst ≠ "" then ["-n", inst] else [])

/-! ## Line decoder and observation builder

The decoder source (`parseMessage`, in the repository's decoder file) is not
under src/; the definitions below are modelled from the specification's Line
Decoder and Observation Builder contracts.  Its call site in `main` fixes the
signature: `parseMessage(content, pathMappings)` receives only the raw line
and the compiled rules. -/

/-- Is `needle` a contiguous substring of `hay`? -/
def containsTok (hay needle : List Char) : Bool :=
  hay.tails.any fun t => needle.isPrefixOf t

/-- The suffix of `line` after the first occurrence of token `tok`. -/
def afterTok : List Char → List Char → Option (List Char)
  | [], tok => if tok = [] then some [] else none
  | c :: rest, tok =>
    if tok.isPrefixOf (c :: rest) then some ((c :: rest).drop tok.length)
    else afterTok rest tok

/-- A quoted field value: the text between the field's opening quote and the
next quote; a line missing the closing quote is malformed. -/
def quotedValue (line : String) (tok : String) : Option String :=
  match afterTok line.data tok.data with
  | none => none
  | some rest =>
    if rest.dropWhile (fun c => c ≠ '"') = [] then none
    else some (String.mk (rest.takeWhile fun c => c ≠ '"'))

/-- A bare field value: the text up to the next space or the end of line. -/
def bareValue (line : String) (tok : String) : Option String :=
  (afterTok line.data tok.data).map fun rest =>
    String.mk (rest.takeWhile fun c => c ≠ ' ')

/-- Numeric value of a list of decimal digits. -/
def natOfDigits (l : List Char) : Nat :=
  l.foldl (fun n c => 10 * n + (c.toNat - '0'.toNat)) 0

/-- A decimal number (digits with an optional fractional part) as an exact
rational. -/
def parseDecimal (s : String) : Option ℚ :=
  let ip := s.data.takeWhile Char.isDigit
  let rest := s.data.dropWhile Char.isDigit
  if ip = [] then none
  else
    match rest with
    | [] => some (natOfDigits ip)
    | '.' :: fr =>
      if fr ≠ [] && fr.all Char.isDigit then
        some ((natOfDigits ip : ℚ) + (natOfDigits fr : ℚ) / ((10 : ℚ) ^ fr.length))
      else none
    | _ => none

/-- Modelled from the spec: `DecodedFields`, the ephemeral per-line field
mapping (required method, status, path, total time; optional cache outcome,
virtual host, first-byte time, response size — absent fields are `none`). -/
structure DecodedFields where
  method : String
  status : String
  path : String
  cache : Option String
  host : Option String
  timeMs : ℚ
  firstbyteMs : Option ℚ
  respsize : Option ℚ
  deriving Repr, DecidableEq

/-- Modelled from the spec: `decode(rawLine, fieldSpec)` — each field is
recognised by its literal prefix token and read up to the delimiter of its
quoting style; a missing or non-numeric required field (method, status,
path, time) is a `DecodeError`; absent optional fields are omitted. -/
def decode (line : String) : Except String DecodedFields :=
  match quotedValue line "method=\"" with
  | none => .error "missing method"
  | some method =>
    match bareValue line "status=" with
    | none => .error "missing status"
    | some status =>
      if !(status.data ≠ [] && status.data.all Char.isDigit) then .error "bad status"
      else
        match quotedValue line "path=\"" with
        | none => .error "missing path"
        | some path =>
          match bareValue line "time:" with
          | none => .error "missing time"
          | some timeStr =>
            match parseDecimal timeStr with
            | none => .error "bad time"
            | some timeMs =>
              .ok
                { method := method
                  status := status
                  path := path
                  cache := quotedValue line "cache=\""
                  host := quotedValue line "host=\""
                  timeMs := timeMs
                  firstbyteMs := (bareValue line "time_firstbyte:").bind parseDecimal
                  respsize := (bareValue line "respsize:").bind parseDecimal }

/-- Modelled from the spec: the Path Rewriter — every rule applied in load
order, each rule replacing all non-overlapping matches of its pattern in the
current path by its replacement; the output of one rule is the input of the
next. -/
def normalize (path : String) (rules : List pathMapping) : String :=
  rules.foldl (fun p r => replaceAll r.Pattern r.Replacement p) path

/-- An ordered label set (paired names and values). -/
structure LabelSet where
  pairs : List (String × String)
  deriving Repr, DecidableEq

def LabelSet.names (ls : LabelSet) : List String := ls.pairs.map Prod.fst

def LabelSet.values (ls : LabelSet) : List String := ls.pairs.map Prod.snd

/-- One `(metric name, value)` produced from a line (the loop prefixes the
namespace and attaches the labels). -/
structure Metric where
  Name : String
  Value : ℚ
  deriving Repr, DecidableEq

/-- Modelled from the spec: label assembly — method and status copied
through, path rewritten, cache and host copied when present and omitted when
absent. -/
def buildLabels (f : DecodedFields) (rules : List pathMapping) : LabelSet :=
  ⟨[("method", f.method), ("status", f.status), ("path", normalize f.path rules)] ++
    (match f.cache with | some c => [("cache", c)] | none => []) ++
    (match f.host with | some h => [("host", h)] | none => [])⟩

/-- Modelled from the spec: the 1–3 observations of a line — always the
request duration (time in milliseconds divided by 1000, seconds), a
first-byte duration when present (same conversion), a response size when
present (raw bytes). -/
def buildMetrics (f : DecodedFields) : List Metric :=
  ⟨"time", f.timeMs / 1000⟩ ::
    ((match f.firstbyteMs with
      | some v => [⟨"time_firstbyte", v / 1000⟩]
      | none => []) ++
     (match f.respsize with
      | some v => [⟨"respsize", v⟩]
      | none => []))

/-- Modelled from the spec: `parseMessage(content, pathMappings)` — decode,
then build the metrics and the label set. -/
def parseMessage (content : String) (mappings : List pathMapping) :
    Except String (List Metric × LabelSet) :=
  (decode content).map fun f => (buildMetrics f, buildLabels f mappings)

/-! ## Prometheus registry and the ingest loop (lines 85–136) -/

/-- One registered `HistogramVec`: its creation stamp, its label-name schema
and the observed samples in arrival order. -/
structure Collector where
  createdAt : Nat
  labelNames : List String
  samples : List (List String × ℚ)
  deriving Repr, DecidableEq

/-- The Prometheus default registry as the loop uses it: collectors keyed by
metric name (the help string is a function of the name, so the name and the
label-name set identify a histogram). -/
structure Registry where
  entries : List (String × Collector)
  stamp : Nat
  deriving Repr, DecidableEq

def Registry.empty : Registry := ⟨[], 0⟩

/-- The loop body for one metric: build a fresh `HistogramVec`, `Register`
it; on `AlreadyRegisteredError` reuse the existing collector; on any other
registration error (an existing collector of the same name with a different
label schema) drop the observation (`continue`); then
`WithLabelValues(...).Observe(value)`. -/
def observeMetric (reg : Registry) (name : String) (labels : LabelSet) (v : ℚ) : Registry :=
  match reg.entries.lookup name with
  | none =>
    { entries := reg.entries ++ [(name, ⟨reg.stamp, labels.names, [(labels.values, v)]⟩)]
      stamp := reg.stamp + 1 }
  | some c =>
    if c.labelNames = labels.names then
      { reg with
          entries := reg.entries.map fun e =>
            if e.1 = name then (e.1, { e.2 with samples := e.2.samples ++ [(labels.values, v)] })
            else e }
    else reg

/-- The two exporter counters and the histogram registry. -/
structure LoopState where
  messages : Nat
  parseFailures : Nat
  registry : Registry
  deriving Repr, DecidableEq

/-- The loop body over one line's metrics: each observation registered and
recorded independently. -/
def observeLine (reg : Registry) (labels : LabelSet) (metrics : List Metric) : Registry :=
  metrics.foldl (fun r m => observeMetric r m.Name labels m.Value) reg

/-- One iteration of the ingest goroutine: `varnishMessages.Inc()`, parse;
on error `log.Error` and `continue` (nothing else changes); on success
observe every metric of the line under the line's labels. -/
def ingestStep (mappings : List pathMapping) (st : LoopState) (line : String) : LoopState :=
  let st := { st with messages := st.messages + 1 }
  match parseMessage line mappings with
  | .error _ => st
  | .ok (metrics, labels) =>
    { st with registry := observeLine st.registry labels metrics }

/-- The ingest loop over a finite prefix of the `varnishncsa` stream. -/
def runLoop (mappings : List pathMapping) (st : LoopState) (lines : List String) : LoopState :=
  lines.foldl (ingestStep mappings) st

/-- Startup then ingest: `parseMappings` runs before the loop goroutine is
spawned, so a configuration error prevents any line from being processed. -/
def runProgram (mappingsFile : String) (fs : String → Except String String)
    (lines : List String) : Except ConfigError LoopState :=
  (parseMappingsFile mappingsFile fs).map fun mappings =>
    runLoop mappings ⟨0, 0, Registry.empty⟩ lines

/-! ## Engine lemmas: the comment and split scans characterised -/

/-- Length of the leading Go-whitespace run. -/
def runWS (l : List Char) : Nat := (l.takeWhile goIsSpace).length

/-- Remove the trailing Go-whitespace run. -/
def dropTrailingWs (l : List Char) : List Char := (l.reverse.dropWhile goIsSpace).reverse

/-- The priority-ordered result list of a greedy star over a one-character
body on a run of length `j`: all lengths from `j` down to `0`. -/
def countdown : Nat → Caps → List (Nat × Caps)
  | 0, caps => [(0, caps)]
  | j + 1, caps => (j + 1, caps) :: countdown j caps

/-- As `countdown`, but without the empty match (a plus instead of a star). -/
def countdown1 : Nat → Caps → List (Nat × Caps)
  | 0, _ => []
  | j + 1, caps => (j + 1, caps) :: countdown1 j caps

/-- The result list of a matcher that consumes exactly one character
satisfying `p`. -/
def singleStep (p : Char → Bool) (rem : List Char) (caps : Caps) : List (Nat × Caps) :=
  match rem with
  | [] => []
  | x :: _ => if p x then [(1, caps)] else []

lemma countdown1_append_zero (j : Nat) (caps : Caps) :
    countdown1 j caps ++ [(0, caps)] = countdown j caps := by
  induction j with
  | zero => rfl
  | succ j ih => simp [countdown1, countdown, ih]

lemma map_succ_countdown (j : Nat) (caps : Caps) :
    (countdown j caps).map (fun q => (1 + q.1, q.2)) = countdown1 (j + 1) caps := by
  induction j with
  | zero => simp [countdown, countdown1]
  | succ j ih =>
    simp only [countdown, List.map_cons, ih, countdown1]
    simp [Nat.add_comm]

lemma starIter_single (mOne : Nat → List Char → Caps → List (Nat × Caps)) (p : Char → Bool)
    (hB : ∀ pos rem caps, mOne pos rem caps = singleStep p rem caps) :
    ∀ (rem : List Char) (fuel pos : Nat) (caps : Caps), rem.length ≤ fuel →
      starIter mOne fuel pos rem caps = countdown (rem.takeWhile p).length caps := by
  intro rem
  induction rem with
  | nil =>
    intro fuel pos caps _
    cases fuel with
    | zero => simp [starIter, countdown]
    | succ f => simp [starIter, hB, singleStep, countdown]
  | cons c rest ih =>
    intro fuel pos caps hle
    cases fuel with
    | zero => simp at hle
    | succ f =>
      have hr : rest.length ≤ f := by simpa using hle
      rw [starIter, hB]
      by_cases hc : p c
      · simp only [singleStep, hc, if_pos]
        have hfil : ([((1 : Nat), caps)].filter fun q => q.1 ≠ 0) = [(1, caps)] := by simp
        rw [hfil]
        simp only [List.flatMap_cons, List.flatMap_nil, List.append_nil,
          List.drop_succ_cons, List.drop_zero]
        rw [ih f (pos + 1) caps hr]
        simp [List.takeWhile_cons, hc, map_succ_countdown, countdown1_append_zero]
      · simp [singleStep, hc, List.takeWhile_cons, countdown]

lemma char_le_iff_toNat (c d : Char) : (c ≤ d) ↔ c.toNat ≤ d.toNat := by
  rw [Char.le_def, UInt32.le_def]
  exact Iff.rfl

lemma char_eq_iff_toNat (c d : Char) : (c = d) ↔ c.toNat = d.toNat := by
  constructor
  · intro h; subst h; rfl
  · intro h
    exact Char.eq_of_val_eq (UInt32.eq_of_toBitVec_eq (BitVec.eq_of_toNat_eq h))

lemma inRanges_space (c : Char) : inRanges spaceRanges c = goIsSpace c := by
  simp only [inRanges, spaceRanges, List.any_cons, List.any_nil, Bool.or_false, goIsSpace]
  rw [Bool.eq_iff_iff]
  simp only [Bool.or_eq_true, Bool.and_eq_true, decide_eq_true_eq]
  rw [char_le_iff_toNat, char_le_iff_toNat, char_le_iff_toNat, char_le_iff_toNat,
    char_le_iff_toNat, char_le_iff_toNat, char_eq_iff_toNat, char_eq_iff_toNat,
    char_eq_iff_toNat, char_eq_iff_toNat, char_eq_iff_toNat]
  have h1 : ('\t').toNat = 9 := rfl
  have h2 : ('\n').toNat = 10 := rfl
  have h3 : ('\x0c').toNat = 12 := rfl
  have h4 : ('\r').toNat = 13 := rfl
  have h5 : (' ').toNat = 32 := rfl
  rw [h1, h2, h3, h4, h5]
  omega

/-- The whitespace single-character matcher. -/
def WS : Regex := .cls false spaceRanges

/-- The body of Go pattern fragment backslash-s-plus. -/
def plusWS : Regex := .cat WS (.star WS)

/-- First alternative of the comment regexp: hash then dot-star. -/
def reA : Regex := .cat (.lit '#') (.cat (.star .dot) .eps)

/-- Second alternative: leading whitespace run anchored at the start. -/
def reB : Regex := .cat .bol (.cat plusWS .eps)

/-- Third alternative: whitespace run anchored at the end. -/
def reC : Regex := .cat plusWS (.cat .eol .eps)

lemma commentRegexp_eq :
    commentRegexp = .group 0 (.cat (.group 1 (.alt reA (.alt reB reC))) .eps) := by
  rfl

lemma splitRegexp_eq : splitRegexp = .group 0 (.cat plusWS .eps) := by
  rfl

lemma mtch_WS_step (pos : Nat) (rem : List Char) (caps : Caps) :
    mtch WS pos rem caps = singleStep goIsSpace rem caps := by
  cases rem with
  | nil => simp [WS, mtch, singleStep]
  | cons x t => simp [WS, mtch, singleStep, inRanges_space]

lemma mtch_dot_step (pos : Nat) (rem : List Char) (caps : Caps) :
    mtch .dot pos rem caps = singleStep (fun c => c != '\n') rem caps := by
  cases rem with
  | nil => simp [mtch, singleStep]
  | cons x t =>
    by_cases hx : x = '\n' <;> simp [mtch, singleStep, hx]

lemma mtch_star_dot (pos : Nat) (rem : List Char) (caps : Caps) :
    mtch (.star .dot) pos rem caps =
      countdown (rem.takeWhile (fun c => c != '\n')).length caps := by
  have h : mtch (.star .dot) pos rem caps =
      starIter (fun a b c => mtch .dot a b c) rem.length pos rem caps := rfl
  rw [h]
  exact starIter_single _ _ (fun a b c => mtch_dot_step a b c) rem rem.length pos caps
    (le_refl _)

lemma mtch_star_WS (pos : Nat) (rem : List Char) (caps : Caps) :
    mtch (.star WS) pos rem caps = countdown (rem.takeWhile goIsSpace).length caps := by
  have h : mtch (.star WS) pos rem caps =
      starIter (fun a b c => mtch WS a b c) rem.length pos rem caps := rfl
  rw [h]
  exact starIter_single _ _ (fun a b c => mtch_WS_step a b c) rem rem.length pos caps
    (le_refl _)

lemma mtch_cat (a b : Regex) (pos : Nat) (rem : List Char) (caps : Caps) :
    mtch (.cat a b) pos rem caps =
      (mtch a pos rem caps).flatMap fun p =>
        (mtch b (pos + p.1) (rem.drop p.1) p.2).map fun q => (p.1 + q.1, q.2) := rfl

lemma mtch_alt (a b : Regex) (pos : Nat) (rem : List Char) (caps : Caps) :
    mtch (.alt a b) pos rem caps = mtch a pos rem caps ++ mtch b pos rem caps := rfl

lemma mtch_group (n : Nat) (a : Regex) (pos : Nat) (rem : List Char) (caps : Caps) :
    mtch (.group n a) pos rem caps =
      (mtch a pos rem caps).map fun p => (p.1, p.2.set n (rem.take p.1)) := rfl

lemma mtch_eps (pos : Nat) (rem : List Char) (caps : Caps) :
    mtch .eps pos rem caps = [(0, caps)] := rfl

lemma mtch_bol (pos : Nat) (rem : List Char) (caps : Caps) :
    mtch .bol pos rem caps = if pos = 0 then [(0, caps)] else [] := rfl

lemma mtch_eol (pos : Nat) (rem : List Char) (caps : Caps) :
    mtch .eol pos rem caps = if rem = [] then [(0, caps)] else [] := rfl

lemma mtch_cat_eps (a : Regex) (pos : Nat) (rem : List Char) (caps : Caps) :
    mtch (.cat a .eps) pos rem caps = mtch a pos rem caps := by
  rw [mtch_cat]
  simp [mtch_eps]

lemma mtch_plusWS (pos : Nat) (rem : List Char) (caps : Caps) :
    mtch plusWS pos rem caps = countdown1 (runWS rem) caps := by
  rw [show plusWS = Regex.cat WS (.star WS) from rfl, mtch_cat, mtch_WS_step]
  cases rem with
  | nil => simp [singleStep, runWS, countdown1]
  | cons c rest =>
    by_cases hc : goIsSpace c
    · simp only [singleStep, hc, if_pos, List.flatMap_cons, List.flatMap_nil, List.append_nil,
        List.drop_succ_cons, List.drop_zero]
      rw [mtch_star_WS]
      simp [runWS, List.takeWhile_cons, hc, map_succ_countdown]
    · simp [singleStep, hc, runWS, List.takeWhile_cons, countdown1]


/-- The committed match length at a position (capture values are irrelevant
to the empty replacement template). -/
def fmLen (re : Regex) (pos : Nat) (rem : List Char) : Option Nat :=
  (firstMatch re pos rem).map Prod.fst

lemma head_map_fst (l : List (Nat × Caps)) (f : Nat × Caps → Nat × Caps)
    (hf : ∀ p, (f p).1 = p.1) :
    ((l.map f).head?).map Prod.fst = (l.head?).map Prod.fst := by
  cases l with
  | nil => rfl
  | cons a t => simp [hf]

lemma takeWhile_eq_self_of_all {α : Type} {p : α → Bool} {l : List α}
    (h : ∀ x ∈ l, p x = true) : l.takeWhile p = l := by
  induction l with
  | nil => rfl
  | cons a t ih =>
    rw [List.takeWhile_cons, if_pos (h a (by simp))]
    rw [ih fun x hx => h x (by simp [hx])]

lemma takeWhile_length_le' {α : Type} (p : α → Bool) (t : List α) :
    (t.takeWhile p).length ≤ t.length := by
  induction t with
  | nil => simp
  | cons a l ih =>
    rw [List.takeWhile_cons]
    by_cases hp : p a
    · simp [hp]
      omega
    · simp [hp]

lemma all_of_takeWhile_length {α : Type} {p : α → Bool} {l : List α}
    (h : (l.takeWhile p).length = l.length) : ∀ x ∈ l, p x = true := by
  induction l with
  | nil => simp
  | cons a t ih =>
    rw [List.takeWhile_cons] at h
    by_cases hp : p a
    · rw [if_pos hp] at h
      simp only [List.length_cons, Nat.add_right_cancel_iff] at h
      intro x hx
      rcases List.mem_cons.mp hx with hx | hx
      · rw [hx]; exact hp
      · exact ih h x hx
    · rw [if_neg hp] at h
      simp at h

lemma fmLen_comment (pos : Nat) (rem : List Char) :
    fmLen commentRegexp pos rem =
      ((mtch reA pos rem Caps.empty ++
        (mtch reB pos rem Caps.empty ++ mtch reC pos rem Caps.empty)).head?).map
        Prod.fst := by
  unfold fmLen firstMatch
  rw [commentRegexp_eq, mtch_group, mtch_cat_eps, mtch_group, mtch_alt, mtch_alt]
  rw [head_map_fst _ (fun p => (p.1, p.2.set 0 (List.take p.1 rem))) (fun p => rfl)]
  rw [head_map_fst _ (fun p => (p.1, p.2.set 1 (List.take p.1 rem))) (fun p => rfl)]

lemma mtch_reA_nil (pos : Nat) : mtch reA pos [] Caps.empty = [] := by
  rw [show reA = Regex.cat (.lit '#') (.cat (.star .dot) .eps) from rfl, mtch_cat]
  simp [mtch]

lemma mtch_reB_nil (pos : Nat) : mtch reB pos [] Caps.empty = [] := by
  rw [show reB = Regex.cat .bol (.cat plusWS .eps) from rfl, mtch_cat, mtch_bol]
  by_cases hp : pos = 0
  · rw [if_pos hp]
    have h0 : mtch (Regex.cat plusWS .eps) 0 ([] : List Char) Caps.empty = [] := by
      rw [mtch_cat_eps, mtch_plusWS]; rfl
    simp [hp, h0]
  · rw [if_neg hp]
    simp

lemma mtch_reC_pre (pos : Nat) (rem : List Char) :
    mtch reC pos rem Caps.empty =
      (countdown1 (runWS rem) Caps.empty).flatMap fun p =>
        (mtch (.cat .eol .eps) (pos + p.1) (rem.drop p.1) p.2).map fun q =>
          (p.1 + q.1, q.2) := by
  rw [show reC = Regex.cat plusWS (.cat .eol .eps) from rfl, mtch_cat, mtch_plusWS]

lemma flatMap_eol (l : List (Nat × Caps)) (pos : Nat) (rem : List Char) :
    (l.flatMap fun p =>
        (mtch (.cat .eol .eps) (pos + p.1) (rem.drop p.1) p.2).map fun q =>
          (p.1 + q.1, q.2)) =
      l.filter fun p => (rem.drop p.1).isEmpty := by
  induction l with
  | nil => rfl
  | cons a t ih =>
    rw [List.flatMap_cons, ih, mtch_cat_eps, mtch_eol]
    by_cases hd : rem.drop a.1 = []
    · rw [if_pos hd]
      simp [List.filter_cons, hd]
    · rw [if_neg hd]
      have : (rem.drop a.1).isEmpty = false := by
        simpa [List.isEmpty_iff] using hd
      simp [List.filter_cons, this]

lemma filter_countdown1_lt (m : Nat) (caps : Caps) (rem : List Char) (hm : m < rem.length) :
    (countdown1 m caps).filter (fun p => (rem.drop p.1).isEmpty) = [] := by
  induction m with
  | zero => rfl
  | succ m ih =>
    rw [countdown1]
    have hlen : (rem.drop (m + 1)).length ≠ 0 := by
      rw [List.length_drop]
      omega
    have hne : (rem.drop (m + 1)).isEmpty = false := by
      rcases h : rem.drop (m + 1) with _ | _
      · rw [h] at hlen; simp at hlen
      · rfl
    simp [List.filter_cons, hne, ih (by omega)]


lemma filter_countdown1_all (rem : List Char) (caps : Caps) (h : 0 < rem.length) :
    (countdown1 rem.length caps).filter (fun p => (rem.drop p.1).isEmpty) =
      [(rem.length, caps)] := by
  obtain ⟨m, hm⟩ : ∃ m, rem.length = m + 1 := ⟨rem.length - 1, by omega⟩
  rw [hm, countdown1]
  have hdrop : (rem.drop (m + 1)).isEmpty = true := by
    rw [← hm, List.drop_length]
    rfl
  rw [List.filter_cons]
  simp only [hdrop, if_pos]
  rw [filter_countdown1_lt m caps rem (by omega), ← hm]

lemma mtch_reA_hash (pos : Nat) (rest : List Char) (h : '\n' ∉ rest) :
    mtch reA pos ('#' :: rest) Caps.empty = countdown1 (rest.length + 1) Caps.empty := by
  rw [show reA = Regex.cat (.lit '#') (.cat (.star .dot) .eps) from rfl, mtch_cat]
  have hlit : mtch (.lit '#') pos ('#' :: rest) Caps.empty = [(1, Caps.empty)] := by
    simp [mtch]
  rw [hlit]
  simp only [List.flatMap_cons, List.flatMap_nil, List.append_nil, List.drop_succ_cons,
    List.drop_zero]
  rw [mtch_cat_eps, mtch_star_dot]
  have htw : (rest.takeWhile (fun c => c != '\n')).length = rest.length := by
    rw [takeWhile_eq_self_of_all]
    intro x hx
    have : x ≠ '\n' := fun hx' => h (hx' ▸ hx)
    simpa using this
  rw [htw, map_succ_countdown]

lemma mtch_reA_not_hash (pos : Nat) (c : Char) (rest : List Char) (hc : c ≠ '#') :
    mtch reA pos (c :: rest) Caps.empty = [] := by
  rw [show reA = Regex.cat (.lit '#') (.cat (.star .dot) .eps) from rfl, mtch_cat]
  have hlit : mtch (.lit '#') pos (c :: rest) Caps.empty = [] := by
    simp [mtch, hc]
  rw [hlit]
  rfl

lemma mtch_reB_cons (pos : Nat) (c : Char) (rest : List Char) :
    mtch reB pos (c :: rest) Caps.empty =
      if pos = 0 then countdown1 (runWS (c :: rest)) Caps.empty else [] := by
  rw [show reB = Regex.cat .bol (.cat plusWS .eps) from rfl, mtch_cat, mtch_bol]
  by_cases hp : pos = 0
  · rw [if_pos hp, if_pos hp]
    simp only [List.flatMap_cons, List.flatMap_nil, List.append_nil, Nat.add_zero,
      List.drop_zero]
    rw [mtch_cat_eps, mtch_plusWS]
    simp
  · rw [if_neg hp, if_neg hp]
    simp

lemma mtch_reC_eq (pos : Nat) (rem : List Char) :
    mtch reC pos rem Caps.empty =
      (countdown1 (runWS rem) Caps.empty).filter fun p => (rem.drop p.1).isEmpty := by
  rw [mtch_reC_pre, flatMap_eol]


lemma goIsSpace_hash : goIsSpace '#' = false := rfl

lemma fmLen_comment_nil (pos : Nat) : fmLen commentRegexp pos [] = none := by
  rw [fmLen_comment, mtch_reA_nil, mtch_reB_nil, mtch_reC_eq]
  simp [runWS, countdown1]

lemma fmLen_comment_hash (pos : Nat) (rest : List Char) (h : '\n' ∉ rest) :
    fmLen commentRegexp pos ('#' :: rest) = some (rest.length + 1) := by
  rw [fmLen_comment, mtch_reA_hash pos rest h, countdown1]
  simp

lemma fmLen_comment_nonws (pos : Nat) (c : Char) (rest : List Char)
    (hc : c ≠ '#') (hw : goIsSpace c = false) :
    fmLen commentRegexp pos (c :: rest) = none := by
  rw [fmLen_comment, mtch_reA_not_hash pos c rest hc, mtch_reB_cons, mtch_reC_eq]
  have hrun : runWS (c :: rest) = 0 := by
    simp [runWS, List.takeWhile_cons, hw]
  rw [hrun]
  by_cases hp : pos = 0 <;> simp [hp, countdown1]

lemma fmLen_comment_ws0 (c : Char) (rest : List Char) (hw : goIsSpace c = true) :
    fmLen commentRegexp 0 (c :: rest) = some (runWS (c :: rest)) := by
  have hc : c ≠ '#' := by
    intro h
    rw [h, goIsSpace_hash] at hw
    exact Bool.false_ne_true hw
  rw [fmLen_comment, mtch_reA_not_hash 0 c rest hc, mtch_reB_cons]
  obtain ⟨j, hj⟩ : ∃ j, runWS (c :: rest) = j + 1 :=
    ⟨runWS rest, by simp [runWS, List.takeWhile_cons, hw]⟩
  rw [hj, if_pos rfl, countdown1]
  simp [hj]

lemma fmLen_comment_wsPos (pos : Nat) (c : Char) (rest : List Char)
    (hp : pos ≠ 0) (hw : goIsSpace c = true) :
    fmLen commentRegexp pos (c :: rest) =
      if (c :: rest).all goIsSpace then some (c :: rest).length else none := by
  have hc : c ≠ '#' := by
    intro h
    rw [h, goIsSpace_hash] at hw
    exact Bool.false_ne_true hw
  rw [fmLen_comment, mtch_reA_not_hash pos c rest hc, mtch_reB_cons, if_neg hp, mtch_reC_eq]
  by_cases hall : (c :: rest).all goIsSpace
  · have hrun : runWS (c :: rest) = (c :: rest).length := by
      unfold runWS
      rw [takeWhile_eq_self_of_all (List.all_eq_true.mp hall)]
    rw [if_pos hall, hrun, filter_countdown1_all _ _ (by simp)]
    simp
  · have hne : runWS (c :: rest) ≠ (c :: rest).length := by
      intro he
      exact hall (List.all_eq_true.mpr (all_of_takeWhile_length he))
    have hle := takeWhile_length_le' goIsSpace (c :: rest)
    have hlt : runWS (c :: rest) < (c :: rest).length := by
      unfold runWS at hne ⊢
      omega
    rw [if_neg hall, filter_countdown1_lt _ _ _ hlt]
    simp

lemma fmLen_split_eq (pos : Nat) (rem : List Char) :
    fmLen splitRegexp pos rem = if 0 < runWS rem then some (runWS rem) else none := by
  unfold fmLen firstMatch
  rw [splitRegexp_eq, mtch_group, mtch_cat_eps, mtch_plusWS]
  rw [head_map_fst _ (fun p => (p.1, p.2.set 0 (rem.take p.1))) (fun p => rfl)]
  by_cases h : 0 < runWS rem
  · obtain ⟨j, hj⟩ : ∃ j, runWS rem = j + 1 := ⟨runWS rem - 1, by omega⟩
    rw [if_pos h, hj, countdown1]
    simp
  · have h0 : runWS rem = 0 := by omega
    rw [if_neg h, h0, countdown1]
    rfl


/-- What the comment scan does strictly after the start of the line: copy up
to the first hash and drop the rest, or — when there is no hash — drop the
trailing whitespace run. -/
def stripMid (l : List Char) : List Char :=
  if l.any (fun x => x = '#') then l.takeWhile (fun x => x != '#') else dropTrailingWs l

/-- The full effect of `commentRegexp.ReplaceAllString(line, "")`: the
leading whitespace run goes first, then `stripMid`. -/
def stripSpecList (l : List Char) : List Char := stripMid (l.dropWhile goIsSpace)

lemma expandTmpl_nil (caps : Caps) : expandTmpl [] caps = [] := rfl

lemma firstMatch_comment_nil (pos : Nat) : firstMatch commentRegexp pos [] = none := by
  have h := fmLen_comment_nil pos
  unfold fmLen at h
  exact Option.map_eq_none'.mp h

lemma scanR_comment_nil (f pos : Nat) : scanR commentRegexp [] f pos [] = [] := by
  cases f with
  | zero => rfl
  | succ f => simp [scanR, firstMatch_comment_nil]

lemma drop_takeWhile_length {α : Type} (p : α → Bool) (l : List α) :
    l.drop (l.takeWhile p).length = l.dropWhile p := by
  induction l with
  | nil => rfl
  | cons a t ih =>
    rw [List.takeWhile_cons, List.dropWhile_cons]
    by_cases hp : p a
    · simp [hp, ih]
    · simp [hp]

lemma dropWhile_eq_nil_of_all {α : Type} {p : α → Bool} {l : List α}
    (h : ∀ x ∈ l, p x = true) : l.dropWhile p = [] := by
  induction l with
  | nil => rfl
  | cons a t ih =>
    rw [List.dropWhile_cons, if_pos (h a (by simp))]
    exact ih fun x hx => h x (by simp [hx])

lemma dropTrailingWs_all {l : List Char} (h : l.all goIsSpace = true) :
    dropTrailingWs l = [] := by
  unfold dropTrailingWs
  rw [dropWhile_eq_nil_of_all]
  · rfl
  · intro x hx
    exact List.all_eq_true.mp h x (List.mem_reverse.mp hx)

lemma all_of_dropWhile_nil {α : Type} {p : α → Bool} {l : List α}
    (h : l.dropWhile p = []) : ∀ x ∈ l, p x = true := by
  induction l with
  | nil => simp
  | cons a t ih =>
    rw [List.dropWhile_cons] at h
    by_cases hp : p a
    · rw [if_pos hp] at h
      intro x hx
      rcases List.mem_cons.mp hx with hx | hx
      · rw [hx]; exact hp
      · exact ih h x hx
    · rw [if_neg hp] at h
      exact absurd h (List.cons_ne_nil a t)

lemma dropTrailingWs_cons_of_not_all (c : Char) (l : List Char)
    (h : l.all goIsSpace = false) : dropTrailingWs (c :: l) = c :: dropTrailingWs l := by
  unfold dropTrailingWs
  rw [List.reverse_cons, List.dropWhile_append]
  have hne : (l.reverse.dropWhile goIsSpace).isEmpty = false := by
    rcases hx : l.reverse.dropWhile goIsSpace with _ | ⟨a, t⟩
    · exfalso
      have hall : l.all goIsSpace = true := List.all_eq_true.mpr fun x hx' =>
        all_of_dropWhile_nil hx x (List.mem_reverse.mpr hx')
      rw [hall] at h
      simp at h
    · rfl
  rw [hne]
  simp


lemma dropTrailingWs_cons_nonws (c : Char) (l : List Char) (hc : goIsSpace c = false) :
    dropTrailingWs (c :: l) = c :: dropTrailingWs l := by
  by_cases hall : l.all goIsSpace
  · rw [dropTrailingWs_all hall]
    unfold dropTrailingWs
    rw [List.reverse_cons, List.dropWhile_append]
    have hnil : l.reverse.dropWhile goIsSpace = [] :=
      dropWhile_eq_nil_of_all fun x hx =>
        List.all_eq_true.mp hall x (List.mem_reverse.mp hx)
    rw [hnil]
    simp [List.dropWhile_cons, hc]
  · exact dropTrailingWs_cons_of_not_all c l (by simpa using hall)

lemma stripMid_nil : stripMid [] = [] := rfl

lemma stripMid_cons (c : Char) (rest : List Char) (hc : c ≠ '#')
    (h : goIsSpace c = false ∨ rest.all goIsSpace = false) :
    stripMid (c :: rest) = c :: stripMid rest := by
  unfold stripMid
  have hany : (c :: rest).any (fun x => x = '#') = rest.any (fun x => x = '#') := by
    simp [hc]
  rw [hany]
  by_cases hr : rest.any (fun x => x = '#')
  · rw [if_pos hr, if_pos hr, List.takeWhile_cons]
    have hbne : (c != '#') = true := by simpa using hc
    rw [if_pos hbne]
  · rw [if_neg hr, if_neg hr]
    rcases h with h | h
    · exact dropTrailingWs_cons_nonws c rest h
    · exact dropTrailingWs_cons_of_not_all c rest h

lemma stripMid_hash (rest : List Char) : stripMid ('#' :: rest) = [] := by
  unfold stripMid
  simp

lemma scanR_comment_mid :
    ∀ (t : List Char) (fuel pos : Nat), t.length < fuel → pos ≠ 0 → '\n' ∉ t →
      scanR commentRegexp [] fuel pos t = stripMid t := by
  intro t
  induction t with
  | nil =>
    intro fuel pos _ _ _
    rw [scanR_comment_nil, stripMid_nil]
  | cons c rest ih =>
    intro fuel pos hf hp hn
    cases fuel with
    | zero => omega
    | succ f =>
      have hf' : rest.length < f := by
        simp only [List.length_cons] at hf
        omega
      have hnr : '\n' ∉ rest := fun hx => hn (List.mem_cons_of_mem _ hx)
      by_cases hc : c = '#'
      · subst hc
        have hfm := fmLen_comment_hash pos rest hnr
        unfold fmLen at hfm
        obtain ⟨p, hp1, hp2⟩ := Option.map_eq_some'.mp hfm
        obtain ⟨k, cp⟩ := p
        simp only at hp2
        subst hp2
        simp only [scanR, hp1]
        rw [expandTmpl_nil, List.drop_length, scanR_comment_nil, stripMid_hash]
        rfl
      · by_cases hw : goIsSpace c
        · by_cases hall : (c :: rest).all goIsSpace
          · have hfm := fmLen_comment_wsPos pos c rest hp hw
            rw [if_pos hall] at hfm
            unfold fmLen at hfm
            obtain ⟨p, hp1, hp2⟩ := Option.map_eq_some'.mp hfm
            obtain ⟨k, cp⟩ := p
            simp only [List.length_cons] at hp2
            subst hp2
            simp only [scanR, hp1]
            rw [expandTmpl_nil, List.drop_length, scanR_comment_nil]
            have hno : (c :: rest).any (fun x => x = '#') = false := by
              rw [List.any_eq_false]
              intro x hx hx'
              have hxeq : x = '#' := by simpa using hx'
              have hxs := List.all_eq_true.mp hall x hx
              rw [hxeq, goIsSpace_hash] at hxs
              exact Bool.false_ne_true hxs
            unfold stripMid
            rw [hno]
            simp [dropTrailingWs_all hall]
          · have hfm := fmLen_comment_wsPos pos c rest hp hw
            rw [if_neg hall] at hfm
            unfold fmLen at hfm
            have h1 : firstMatch commentRegexp pos (c :: rest) = none :=
              Option.map_eq_none'.mp hfm
            simp only [scanR, h1]
            rw [ih f (pos + 1) hf' (by omega) hnr]
            have hra : rest.all goIsSpace = false := by
              rcases hb : rest.all goIsSpace
              · rfl
              · exfalso
                apply hall
                simp [List.all_cons, hw, hb]
            rw [stripMid_cons c rest hc (Or.inr hra)]
        · have hwf : goIsSpace c = false := by simpa using hw
          have hfm := fmLen_comment_nonws pos c rest hc hwf
          unfold fmLen at hfm
          have h1 : firstMatch commentRegexp pos (c :: rest) = none :=
            Option.map_eq_none'.mp hfm
          simp only [scanR, h1]
          rw [ih f (pos + 1) hf' (by omega) hnr]
          rw [stripMid_cons c rest hc (Or.inl hwf)]

lemma scanR_comment_top (s : List Char) (h : '\n' ∉ s) :
    scanR commentRegexp [] (s.length + 1) 0 s = stripSpecList s := by
  cases s with
  | nil =>
    rw [scanR_comment_nil]
    rfl
  | cons c rest =>
    have hnr : '\n' ∉ rest := fun hx => h (List.mem_cons_of_mem _ hx)
    by_cases hw : goIsSpace c
    · have hfm := fmLen_comment_ws0 c rest hw
      unfold fmLen at hfm
      obtain ⟨p, hp1, hp2⟩ := Option.map_eq_some'.mp hfm
      obtain ⟨k, cp⟩ := p
      simp only at hp2
      rw [show runWS (c :: rest) = runWS rest + 1 from by
        simp [runWS, List.takeWhile_cons, hw]] at hp2
      subst hp2
      simp only [List.length_cons, scanR, hp1]
      rw [expandTmpl_nil]
      have hdrop : rest.drop (runWS rest) = rest.dropWhile goIsSpace := by
        rw [show runWS rest = (rest.takeWhile goIsSpace).length from rfl,
          drop_takeWhile_length]
      have hlen : (rest.drop (runWS rest)).length < rest.length + 1 := by
        rw [List.length_drop]
        omega
      have hmem : '\n' ∉ rest.drop (runWS rest) := fun hx =>
        hnr (List.mem_of_mem_drop hx)
      rw [scanR_comment_mid (rest.drop (runWS rest)) (rest.length + 1)
        (0 + runWS rest + 1) hlen (by omega) hmem]
      rw [hdrop]
      unfold stripSpecList
      rw [List.dropWhile_cons, if_pos hw]
      simp
    · have hwf : goIsSpace c = false := by simpa using hw
      by_cases hc : c = '#'
      · subst hc
        have hfm := fmLen_comment_hash 0 rest hnr
        unfold fmLen at hfm
        obtain ⟨p, hp1, hp2⟩ := Option.map_eq_some'.mp hfm
        obtain ⟨k, cp⟩ := p
        simp only at hp2
        subst hp2
        simp only [List.length_cons, scanR, hp1]
        rw [expandTmpl_nil, List.drop_length, scanR_comment_nil]
        unfold stripSpecList
        rw [List.dropWhile_cons, if_neg (by simp [goIsSpace_hash])]
        rw [stripMid_hash]
        rfl
      · have hfm := fmLen_comment_nonws 0 c rest hc hwf
        unfold fmLen at hfm
        have h1 : firstMatch commentRegexp 0 (c :: rest) = none :=
          Option.map_eq_none'.mp hfm
        simp only [List.length_cons, scanR, h1]
        rw [scanR_comment_mid rest (rest.length + 1) 1 (by omega) (by omega) hnr]
        unfold stripSpecList
        rw [List.dropWhile_cons, if_neg (by simp [hwf])]
        rw [stripMid_cons c rest hc (Or.inl hwf)]

/-- `commentRegexp.ReplaceAllString(line, "")` on a newline-free line equals
the simultaneous strip: the leading whitespace run, everything from the
first hash onwards, and — when no hash is present — the trailing whitespace
run are removed; interior whitespace that does not touch the end survives. -/
theorem stripLine_eq_spec (s : String) (h : '\n' ∉ s.data) :
    stripLine s = String.mk (stripSpecList s.data) := by
  show String.mk (scanR commentRegexp (parseTmpl ("" : String).data)
    (s.data.length + 1) 0 s.data) = _
  rw [show parseTmpl ("" : String).data = [] from rfl]
  rw [scanR_comment_top s.data h]


/-- Position of the first Go-whitespace character. -/
def idxWS (l : List Char) : Nat := (l.takeWhile (fun c => !goIsSpace c)).length

lemma take_takeWhile_length {α : Type} (p : α → Bool) (l : List α) :
    l.take (l.takeWhile p).length = l.takeWhile p := by
  induction l with
  | nil => rfl
  | cons a t ih =>
    rw [List.takeWhile_cons]
    by_cases hp : p a
    · simp [hp, ih]
    · simp [hp]

lemma findLeftF_split_char :
    ∀ (rem : List Char) (fuel pos : Nat), rem.length < fuel →
      findLeftF splitRegexp fuel pos rem =
        if rem.any goIsSpace then
          some (pos + idxWS rem, runWS (rem.drop (idxWS rem)))
        else none := by
  intro rem
  induction rem with
  | nil =>
    intro fuel pos hf
    cases fuel with
    | zero => omega
    | succ f =>
      have h0 : firstMatch splitRegexp pos [] = none := by
        have := fmLen_split_eq pos []
        rw [if_neg (by simp [runWS])] at this
        exact Option.map_eq_none'.mp this
      simp [findLeftF, h0]
  | cons c rest ih =>
    intro fuel pos hf
    cases fuel with
    | zero => omega
    | succ f =>
      by_cases hw : goIsSpace c
      · have hrun : 0 < runWS (c :: rest) := by
          simp [runWS, List.takeWhile_cons, hw]
        have hfm := fmLen_split_eq pos (c :: rest)
        rw [if_pos hrun] at hfm
        unfold fmLen at hfm
        obtain ⟨p, hp1, hp2⟩ := Option.map_eq_some'.mp hfm
        obtain ⟨k, cp⟩ := p
        simp only at hp2
        subst hp2
        simp only [findLeftF, hp1]
        have hany : (c :: rest).any goIsSpace = true := by simp [List.any_cons, hw]
        rw [if_pos hany]
        have hidx : idxWS (c :: rest) = 0 := by
          simp [idxWS, List.takeWhile_cons, hw]
        rw [hidx]
        simp
      · have hwf : goIsSpace c = false := by simpa using hw
        have hrun : runWS (c :: rest) = 0 := by
          simp [runWS, List.takeWhile_cons, hwf]
        have hfm := fmLen_split_eq pos (c :: rest)
        rw [if_neg (by omega)] at hfm
        unfold fmLen at hfm
        have h1 : firstMatch splitRegexp pos (c :: rest) = none :=
          Option.map_eq_none'.mp hfm
        simp only [findLeftF, h1]
        have hdrop1 : List.drop 1 (c :: rest) = rest := rfl
        rw [hdrop1, ih f (pos + 1) (by simp at hf; omega)]
        have hany : (c :: rest).any goIsSpace = rest.any goIsSpace := by
          simp [List.any_cons, hwf]
        rw [hany]
        by_cases hr : rest.any goIsSpace
        · rw [if_pos hr, if_pos hr]
          have hidx : idxWS (c :: rest) = idxWS rest + 1 := by
            simp [idxWS, List.takeWhile_cons, hwf]
          rw [hidx]
          have hdr : List.drop (idxWS rest + 1) (c :: rest) = List.drop (idxWS rest) rest :=
            rfl
          rw [hdr]
          have : pos + 1 + idxWS rest = pos + (idxWS rest + 1) := by omega
          rw [this]
        · rw [if_neg hr, if_neg hr]


lemma goSplit2_split_char (l : List Char) :
    goSplit2 splitRegexp (String.mk l) =
      if l.any goIsSpace then
        [String.mk (l.takeWhile fun c => !goIsSpace c),
         String.mk ((l.dropWhile fun c => !goIsSpace c).dropWhile goIsSpace)]
      else [String.mk l] := by
  unfold goSplit2
  have hd : (String.mk l).data = l := rfl
  rw [hd, findLeftF_split_char l (l.length + 1) 0 (by omega)]
  by_cases h : l.any goIsSpace
  · rw [if_pos h, if_pos h]
    have hdl : l.drop (idxWS l) = l.dropWhile fun c => !goIsSpace c := by
      unfold idxWS
      exact drop_takeWhile_length _ l
    have e1 : (0 : Nat) + idxWS l = idxWS l := by omega
    have h1 : l.take (idxWS l) = l.takeWhile fun c => !goIsSpace c :=
      take_takeWhile_length _ l
    have h2 : l.drop (idxWS l + runWS (l.drop (idxWS l))) =
        (l.dropWhile fun c => !goIsSpace c).dropWhile goIsSpace := by
      rw [← List.drop_drop (runWS (l.drop (idxWS l))) (idxWS l) l, hdl]
      rw [show runWS (l.dropWhile fun c => !goIsSpace c) =
        ((l.dropWhile fun c => !goIsSpace c).takeWhile goIsSpace).length from rfl]
      exact drop_takeWhile_length _ _
    rw [e1]
    show [String.mk (l.take (idxWS l)),
      String.mk (l.drop (idxWS l + runWS (l.drop (idxWS l))))] = _
    rw [h1, h2]
  · rw [if_neg h, if_neg h]

lemma lineRule_char (line : String) (t : List Char) (h : '\n' ∉ line.data)
    (ht : stripSpecList line.data = t) :
    lineRule line =
      if t = [] then []
      else if t.any goIsSpace then
        [(String.mk (t.takeWhile fun c => !goIsSpace c),
          String.mk ((t.dropWhile fun c => !goIsSpace c).dropWhile goIsSpace))]
      else [(String.mk t, "")] := by
  subst ht
  unfold lineRule
  rw [stripLine_eq_spec line h]
  by_cases h0 : stripSpecList line.data = []
  · rw [h0]
    simp
  · have hne : ({ data := stripSpecList line.data } : String) ≠ "" := by
      intro he
      apply h0
      have hdata := congrArg String.data he
      simpa using hdata
    rw [if_neg hne, if_neg h0, goSplit2_split_char]
    by_cases hws : (stripSpecList line.data).any goIsSpace
    · rw [if_pos hws, if_pos hws]
    · rw [if_neg hws, if_neg hws]


lemma splitLinesAux_no_newline (s : List Char) :
    ∀ (acc : List Char), '\n' ∉ acc → ∀ l ∈ splitLinesAux acc s, '\n' ∉ l := by
  induction s with
  | nil =>
    intro acc hacc l hl
    simp only [splitLinesAux, List.mem_singleton] at hl
    subst hl
    simpa [List.mem_reverse] using hacc
  | cons c rest ih =>
    intro acc hacc l hl
    by_cases hc : c = '\n'
    · rw [splitLinesAux, if_pos hc] at hl
      rcases List.mem_cons.mp hl with hl | hl
      · subst hl
        simpa [List.mem_reverse] using hacc
      · exact ih [] (by simp) l hl
    · rw [splitLinesAux, if_neg hc] at hl
      refine ih (c :: acc) ?_ l hl
      intro hmem
      rcases List.mem_cons.mp hmem with hmem | hmem
      · exact hc hmem.symm
      · exact hacc hmem

lemma splitLines_no_newline (s : String) : ∀ line ∈ splitLines s, '\n' ∉ line.data := by
  intro line hl
  unfold splitLines at hl
  by_cases h0 : s.data = []
  · simp [h0] at hl
  · rw [if_neg h0] at hl
    obtain ⟨l, hlmem, hfn⟩ := List.mem_map.mp hl
    have hparts : l ∈ splitLinesAux [] s.data := by
      by_cases hg : s.data.getLast? = some '\n'
      · rw [if_pos hg] at hlmem
        exact (List.dropLast_sublist _).subset hlmem
      · rw [if_neg hg] at hlmem
        exact hlmem
    have hnl : '\n' ∉ l := splitLinesAux_no_newline s.data [] (by simp) l hparts
    have hdata : line.data = if l.getLast? = some '\r' then l.dropLast else l := by
      rw [← hfn]
    intro hmem
    rw [hdata] at hmem
    by_cases hr : l.getLast? = some '\r'
    · rw [if_pos hr] at hmem
      exact hnl ((List.dropLast_sublist _).subset hmem)
    · rw [if_neg hr] at hmem
      exact hnl hmem


/-! ## Registry lemmas -/

/-- One abstract observation as the loop submits it to the registry. -/
structure Obs where
  name : String
  labels : LabelSet
  value : ℚ
  deriving Repr, DecidableEq

/-- Fold a sequence of observations through the registry. -/
def observeAll (reg : Registry) (obs : List Obs) : Registry :=
  obs.foldl (fun r o => observeMetric r o.name o.labels o.value) reg

/-- The per-run assumption the spec grants the registry: every observation
with a given metric name carries the same label-name set. -/
def Consistent (obs : List Obs) : Prop :=
  ∀ o1 ∈ obs, ∀ o2 ∈ obs, o1.name = o2.name → o1.labels.names = o2.labels.names

lemma lookup_append_left {l₁ l₂ : List (String × Collector)} {k : String} {c : Collector}
    (h : l₁.lookup k = some c) : (l₁ ++ l₂).lookup k = some c := by
  induction l₁ with
  | nil => simp [List.lookup] at h
  | cons a t ih =>
    simp only [List.lookup, List.cons_append] at h ⊢
    cases hk : (k == a.1) with
    | true => rw [hk] at h; exact h
    | false => rw [hk] at h; exact ih h

lemma lookup_append_none {l₁ l₂ : List (String × Collector)} {k : String}
    (h : l₁.lookup k = none) : (l₁ ++ l₂).lookup k = l₂.lookup k := by
  induction l₁ with
  | nil => simp
  | cons a t ih =>
    simp only [List.lookup, List.cons_append] at h ⊢
    cases hk : (k == a.1) with
    | true => rw [hk] at h; exact absurd h (by simp)
    | false => rw [hk] at h; exact ih h

lemma lookup_map_update (l : List (String × Collector)) (n : String)
    (g : String × Collector → Collector) (k : String) :
    ((l.map fun e => if e.1 = n then (e.1, g e) else e).lookup k) =
      if k = n then (l.lookup k).map (fun c => g (n, c)) else l.lookup k := by
  induction l with
  | nil => by_cases hk : k = n <;> simp [hk, List.lookup]
  | cons a t ih =>
    rw [List.map_cons]
    by_cases ha : a.1 = n
    · rw [if_pos ha]
      by_cases hk : k = a.1
      · have hkn : k = n := by rw [hk, ha]
        have hbeq : (k == a.1) = true := by simpa using hk
        simp [List.lookup, hbeq, hkn, ← ha]
      · have hbeq : (k == a.1) = false := by simpa using hk
        simp [List.lookup, hbeq, ih]
    · rw [if_neg ha]
      by_cases hk : k = a.1
      · have hkn : ¬k = n := fun he => ha (hk ▸ he)
        have hbeq : (k == a.1) = true := by simpa using hk
        simp [List.lookup, hbeq, hkn]
      · have hbeq : (k == a.1) = false := by simpa using hk
        simp [List.lookup, hbeq, ih]

/-- The collector update the loop's observe step performs. -/
def bumpSamples (labels : LabelSet) (v : ℚ) (e : String × Collector) : Collector :=
  { createdAt := e.2.createdAt, labelNames := e.2.labelNames,
    samples := e.2.samples ++ [(labels.values, v)] }

lemma observeMetric_lookup_other (reg : Registry) (n : String) (labels : LabelSet)
    (v : ℚ) (name : String) (h : n ≠ name) :
    (observeMetric reg n labels v).entries.lookup name = reg.entries.lookup name := by
  unfold observeMetric
  cases hl : reg.entries.lookup n with
  | none =>
    simp only []
    cases hk : reg.entries.lookup name with
    | none =>
      rw [lookup_append_none hk]
      have hbeq : (name == n) = false := by simpa using Ne.symm h
      simp [List.lookup, hbeq]
    | some c => exact lookup_append_left hk
  | some c =>
    simp only []
    by_cases hlab : c.labelNames = labels.names
    · rw [if_pos hlab]
      show List.lookup name
        (List.map (fun e => if e.1 = n then (e.1, bumpSamples labels v e) else e)
          reg.entries) = List.lookup name reg.entries
      rw [lookup_map_update, if_neg (Ne.symm h)]
    · rw [if_neg hlab]

lemma observeMetric_create (reg : Registry) (name : String) (labels : LabelSet) (v : ℚ)
    (h : reg.entries.lookup name = none) :
    observeMetric reg name labels v =
      { entries := reg.entries ++
          [(name, ⟨reg.stamp, labels.names, [(labels.values, v)]⟩)],
        stamp := reg.stamp + 1 } := by
  unfold observeMetric
  rw [h]

lemma observeMetric_update (reg : Registry) (name : String) (labels : LabelSet) (v : ℚ)
    (c : Collector) (h : reg.entries.lookup name = some c)
    (hlab : c.labelNames = labels.names) :
    observeMetric reg name labels v =
      { entries := reg.entries.map fun e =>
          if e.1 = name then (e.1, bumpSamples labels v e) else e,
        stamp := reg.stamp } := by
  unfold observeMetric
  rw [h]
  simp only []
  rw [if_pos hlab]
  rfl

lemma observeMetric_drop (reg : Registry) (name : String) (labels : LabelSet) (v : ℚ)
    (c : Collector) (h : reg.entries.lookup name = some c)
    (hlab : ¬c.labelNames = labels.names) :
    observeMetric reg name labels v = reg := by
  unfold observeMetric
  rw [h]
  simp only []
  rw [if_neg hlab]

lemma lookup_after_create (reg : Registry) (name : String) (labels : LabelSet) (v : ℚ)
    (h : reg.entries.lookup name = none) :
    (observeMetric reg name labels v).entries.lookup name =
      some ⟨reg.stamp, labels.names, [(labels.values, v)]⟩ := by
  rw [observeMetric_create reg name labels v h]
  simp only []
  rw [lookup_append_none h]
  simp [List.lookup]

lemma lookup_after_update (reg : Registry) (name : String) (labels : LabelSet) (v : ℚ)
    (c : Collector) (h : reg.entries.lookup name = some c)
    (hlab : c.labelNames = labels.names) :
    (observeMetric reg name labels v).entries.lookup name =
      some ⟨c.createdAt, c.labelNames, c.samples ++ [(labels.values, v)]⟩ := by
  rw [observeMetric_update reg name labels v c h hlab]
  simp only []
  rw [lookup_map_update, if_pos rfl, h]
  rfl

lemma observeAll_present (obs : List Obs) :
    ∀ (reg : Registry) (name : String) (c : Collector),
      (∀ o ∈ obs, o.name = name → o.labels.names = c.labelNames) →
      reg.entries.lookup name = some c →
      (observeAll reg obs).entries.lookup name =
        some ⟨c.createdAt, c.labelNames,
          c.samples ++ (obs.filter (fun o => o.name == name)).map
            (fun o => (o.labels.values, o.value))⟩ := by
  induction obs with
  | nil =>
    intro reg name c _ hc
    simp only [observeAll, List.foldl_nil, List.filter_nil, List.map_nil, List.append_nil]
    rw [hc]
  | cons o rest ih =>
    intro reg name c hcons hc
    have hstep : observeAll reg (o :: rest) =
        observeAll (observeMetric reg o.name o.labels o.value) rest := rfl
    rw [hstep]
    by_cases ho : o.name = name
    · have hlab : o.labels.names = c.labelNames := hcons o (by simp) ho
      have hc' : (observeMetric reg o.name o.labels o.value).entries.lookup name =
          some ⟨c.createdAt, c.labelNames, c.samples ++ [(o.labels.values, o.value)]⟩ := by
        rw [ho]
        exact lookup_after_update reg name o.labels o.value c hc hlab.symm
      have hcons' : ∀ o' ∈ rest, o'.name = name →
          o'.labels.names =
            (⟨c.createdAt, c.labelNames, c.samples ++ [(o.labels.values, o.value)]⟩ :
              Collector).labelNames := by
        intro o' ho' hname
        exact hcons o' (by simp [ho']) hname
      rw [ih _ name _ hcons' hc']
      have hbeq : (o.name == name) = true := by simpa using ho
      simp [List.filter_cons, hbeq]
    · have hc' : (observeMetric reg o.name o.labels o.value).entries.lookup name =
          some c := by
        rw [observeMetric_lookup_other reg o.name o.labels o.value name ho]
        exact hc
      have hcons' : ∀ o' ∈ rest, o'.name = name → o'.labels.names = c.labelNames := by
        intro o' ho' hname
        exact hcons o' (by simp [ho']) hname
      rw [ih _ name c hcons' hc']
      have hbeq : (o.name == name) = false := by simpa using ho
      simp [List.filter_cons, hbeq]

lemma observeAll_create (obs : List Obs) :
    ∀ (reg : Registry) (name : String) (L : List String),
      (∀ o ∈ obs, o.name = name → o.labels.names = L) →
      reg.entries.lookup name = none →
      (∃ o ∈ obs, o.name = name) →
      ∃ t, (observeAll reg obs).entries.lookup name =
        some ⟨t, L, (obs.filter (fun o => o.name == name)).map
          (fun o => (o.labels.values, o.value))⟩ := by
  induction obs with
  | nil =>
    intro reg name L _ _ hmem
    obtain ⟨o, ho, _⟩ := hmem
    exact absurd ho (List.not_mem_nil o)
  | cons o rest ih =>
    intro reg name L hcons habs hmem
    have hstep : observeAll reg (o :: rest) =
        observeAll (observeMetric reg o.name o.labels o.value) rest := rfl
    rw [hstep]
    by_cases ho : o.name = name
    · have hL : o.labels.names = L := hcons o (by simp) ho
      have hc0 : (observeMetric reg o.name o.labels o.value).entries.lookup name =
          some ⟨reg.stamp, o.labels.names, [(o.labels.values, o.value)]⟩ := by
        rw [ho]
        exact lookup_after_create reg name o.labels o.value habs
      have hcons' : ∀ o' ∈ rest, o'.name = name →
          o'.labels.names =
            (⟨reg.stamp, o.labels.names, [(o.labels.values, o.value)]⟩ :
              Collector).labelNames := by
        intro o' ho' hname
        simp only []
        rw [hL]
        exact hcons o' (by simp [ho']) hname
      refine ⟨reg.stamp, ?_⟩
      rw [observeAll_present rest _ name _ hcons' hc0]
      have hbeq : (o.name == name) = true := by simpa using ho
      simp [List.filter_cons, hbeq, hL]
    · have habs' : (observeMetric reg o.name o.labels o.value).entries.lookup name =
          none := by
        rw [observeMetric_lookup_other reg o.name o.labels o.value name ho]
        exact habs
      have hcons' : ∀ o' ∈ rest, o'.name = name → o'.labels.names = L := by
        intro o' ho' hname
        exact hcons o' (by simp [ho']) hname
      have hmem' : ∃ o' ∈ rest, o'.name = name := by
        obtain ⟨o', ho', hname⟩ := hmem
        rcases List.mem_cons.mp ho' with he | he
        · exact absurd (he ▸ hname) ho
        · exact ⟨o', he, hname⟩
      obtain ⟨t, ht⟩ := ih _ name L hcons' habs' hmem'
      refine ⟨t, ?_⟩
      rw [ht]
      have hbeq : (o.name == name) = false := by simpa using ho
      simp [List.filter_cons, hbeq]


/-- Number of registry entries keyed by `name`. -/
def keyCount (entries : List (String × Collector)) (name : String) : Nat :=
  entries.countP fun e => e.1 == name

lemma keyCount_map_update (l : List (String × Collector)) (n : String)
    (g : String × Collector → Collector) (name : String) :
    keyCount (l.map fun e => if e.1 = n then (e.1, g e) else e) name =
      keyCount l name := by
  unfold keyCount
  rw [List.countP_map]
  apply List.countP_congr
  intro e _
  by_cases he : e.1 = n <;> simp [he]

lemma keyCount_observeMetric (reg : Registry) (n : String) (labels : LabelSet) (v : ℚ)
    (name : String) :
    keyCount (observeMetric reg n labels v).entries name =
      keyCount reg.entries name +
        (if reg.entries.lookup n = none ∧ n = name then 1 else 0) := by
  cases hl : reg.entries.lookup n with
  | none =>
    rw [observeMetric_create reg n labels v hl]
    simp only [keyCount, List.countP_append]
    by_cases hn : n = name
    · simp [hn, hl, List.countP_cons]
    · have hbeq : (n == name) = false := by simpa using hn
      simp [hn, hl, List.countP_cons, hbeq]
  | some c =>
    by_cases hlab : c.labelNames = labels.names
    · rw [observeMetric_update reg n labels v c hl hlab]
      simp only []
      rw [keyCount_map_update]
      simp [hl]
    · rw [observeMetric_drop reg n labels v c hl hlab]
      simp [hl]

lemma lookup_isSome_observeMetric (reg : Registry) (n : String) (labels : LabelSet)
    (v : ℚ) (name : String) (h : (reg.entries.lookup name).isSome) :
    ((observeMetric reg n labels v).entries.lookup name).isSome := by
  by_cases hn : n = name
  · subst hn
    cases hl : reg.entries.lookup n with
    | none => rw [hl] at h; simp at h
    | some c =>
      by_cases hlab : c.labelNames = labels.names
      · rw [lookup_after_update reg n labels v c hl hlab]
        rfl
      · rw [observeMetric_drop reg n labels v c hl hlab]
        exact h
  · rw [observeMetric_lookup_other reg n labels v name hn]
    exact h

lemma observeAll_keyCount_present (obs : List Obs) :
    ∀ (reg : Registry) (name : String), (reg.entries.lookup name).isSome →
      keyCount reg.entries name = 1 →
      keyCount (observeAll reg obs).entries name = 1 := by
  induction obs with
  | nil => intro reg name _ h1; exact h1
  | cons o rest ih =>
    intro reg name hsm h1
    have hstep : observeAll reg (o :: rest) =
        observeAll (observeMetric reg o.name o.labels o.value) rest := rfl
    rw [hstep]
    have hkc : keyCount (observeMetric reg o.name o.labels o.value).entries name = 1 := by
      rw [keyCount_observeMetric]
      by_cases ho : o.name = name
      · have hns : ¬reg.entries.lookup o.name = none := by
          rw [ho]
          intro he
          rw [he] at hsm
          simp at hsm
        rw [if_neg (fun hand => hns hand.1), h1]
      · rw [if_neg (fun hand => ho hand.2), h1]
    exact ih _ name (lookup_isSome_observeMetric reg o.name o.labels o.value name hsm) hkc

lemma observeAll_keyCount_fromNone (obs : List Obs) :
    ∀ (reg : Registry) (name : String), reg.entries.lookup name = none →
      keyCount reg.entries name = 0 →
      keyCount (observeAll reg obs).entries name =
        if obs.any (fun o => o.name == name) then 1 else 0 := by
  induction obs with
  | nil => intro reg name _ h0; simpa [observeAll] using h0
  | cons o rest ih =>
    intro reg name habs h0
    have hstep : observeAll reg (o :: rest) =
        observeAll (observeMetric reg o.name o.labels o.value) rest := rfl
    rw [hstep]
    by_cases ho : o.name = name
    · have habs' : reg.entries.lookup o.name = none := by rw [ho]; exact habs
      have hkc : keyCount (observeMetric reg o.name o.labels o.value).entries name = 1 := by
        rw [keyCount_observeMetric, if_pos (And.intro habs' ho), h0]
      have hsome : ((observeMetric reg o.name o.labels o.value).entries.lookup name).isSome := by
        rw [ho] at habs' ⊢
        rw [lookup_after_create reg name o.labels o.value habs']
        rfl
      rw [observeAll_keyCount_present rest _ name hsome hkc]
      have hbeq : (o.name == name) = true := by simpa using ho
      simp [List.any_cons, hbeq]
    · have habs' : (observeMetric reg o.name o.labels o.value).entries.lookup name = none := by
        rw [observeMetric_lookup_other reg o.name o.labels o.value name ho]
        exact habs
      have h0' : keyCount (observeMetric reg o.name o.labels o.value).entries name = 0 := by
        rw [keyCount_observeMetric, if_neg (fun hand => ho hand.2), h0]
      rw [ih _ name habs' h0']
      have hbeq : (o.name == name) = false := by simpa using ho
      simp [List.any_cons, hbeq]


/-! ## Claim theorems -/

/-- Convenience constructor for a compiled rule from its pattern text. -/
def ruleOf (pat rep : String) : pathMapping := ⟨(compile pat).getD .eps, rep⟩

/-- A log line with no `status=` token (the spec's missing-required-field
example). -/
def lineNoStatus : String := "method=\"GET\" path=\"/\" cache=\"hit\" host=\"h\" time:100"

/-- The spec's end-to-end example line. -/
def c7line : String :=
  "method=\"GET\" status=200 path=\"/users/42/\" cache=\"hit\" host=\"example.com\" time:123.4"

/-- C1: a line that fails to decode leaves every histogram unchanged and
increments the message counter by exactly one — but the parse-failure
counter is NOT incremented: no code path in the ingest loop ever increments
`varnish_request_exporter_log_parse_failure`, so the claimed failure-counter
increment does not happen. -/
theorem C1_decode_failure_counter_not_incremented :
    ∀ (mappings : List pathMapping) (st : LoopState),
      (∃ e, parseMessage lineNoStatus mappings = .error e) ∧
      ingestStep mappings st lineNoStatus =
        { messages := st.messages + 1
          parseFailures := st.parseFailures
          registry := st.registry } := by
  intro mappings st
  have hdec : decode lineNoStatus = .error "missing status" := rfl
  constructor
  · refine ⟨"missing status", ?_⟩
    unfold parseMessage
    rw [hdec]
    rfl
  · unfold ingestStep parseMessage
    rw [hdec]
    rfl

/-- C4: the path rewriter applies the rules sequentially — zero rules is the
identity, and each rule's `ReplaceAllString` output feeds the next rule —
and on the spec's own example the three rules rewrite
`//api/42/users/7/` to `/api/ID/users/ID`. -/
theorem C4_normalize_sequential_rules :
    (∀ p : String, normalize p [] = p) ∧
    (∀ (r : pathMapping) (rs : List pathMapping) (p : String),
      normalize p (r :: rs) = normalize (replaceAll r.Pattern r.Replacement p) rs) ∧
    normalize "//api/42/users/7/"
      [ruleOf "\\d+" "ID", ruleOf "//+" "/", ruleOf "/$" ""] = "/api/ID/users/ID" := by
  refine ⟨fun p => rfl, fun r rs p => rfl, ?_⟩
  decide

/-- C7: duration observations are the decoded time field (decimal
milliseconds) divided by 1000, response sizes pass through raw, and the
spec's end-to-end example line yields exactly one observation of 0.1234
seconds under the expected labels. -/
theorem C7_time_milliseconds_to_seconds :
    (∀ f : DecodedFields, Metric.mk "time" (f.timeMs / 1000) ∈ buildMetrics f) ∧
    (∀ (f : DecodedFields) (v : ℚ), f.firstbyteMs = some v →
      Metric.mk "time_firstbyte" (v / 1000) ∈ buildMetrics f) ∧
    (∀ (f : DecodedFields) (v : ℚ), f.respsize = some v →
      Metric.mk "respsize" v ∈ buildMetrics f) ∧
    parseMessage c7line [ruleOf "\\d+" "ID"] =
      .ok ([⟨"time", (1234 : ℚ) / 10000⟩],
        ⟨[("method", "GET"), ("status", "200"), ("path", "/users/ID/"),
          ("cache", "hit"), ("host", "example.com")]⟩) := by
  refine ⟨?_, ?_, ?_, ?_⟩
  · intro f
    simp [buildMetrics]
  · intro f v hv
    simp [buildMetrics, hv]
  · intro f v hv
    simp [buildMetrics, hv]
  · have hdec : decode c7line =
        .ok ⟨"GET", "200", "/users/42/", some "hit", some "example.com",
          ((123 : ℕ) : ℚ) + ((4 : ℕ) : ℚ) / (10 : ℚ) ^ (1 : ℕ), none, none⟩ := rfl
    have hpm : parseMessage c7line [ruleOf "\\d+" "ID"] =
        .ok ([⟨"time", (((123 : ℕ) : ℚ) + ((4 : ℕ) : ℚ) / (10 : ℚ) ^ (1 : ℕ)) / 1000⟩],
          ⟨[("method", "GET"), ("status", "200"), ("path", "/users/ID/"),
            ("cache", "hit"), ("host", "example.com")]⟩) := by
      unfold parseMessage
      rw [hdec]
      rfl
    rw [hpm]
    have hval : (((123 : ℕ) : ℚ) + ((4 : ℕ) : ℚ) / (10 : ℚ) ^ (1 : ℕ)) / 1000 =
        (1234 : ℚ) / 10000 := by
      norm_num
    rw [hval]

/-- Witness for C7 at a concrete decoded line: both optional observations
are produced with the claimed conversions. -/
theorem C7_witness :
    Metric.mk "time_firstbyte" ((50 : ℚ) / 1000) ∈
      buildMetrics ⟨"GET", "200", "/", none, none, 100, some 50, some 33⟩ ∧
    Metric.mk "respsize" 33 ∈
      buildMetrics ⟨"GET", "200", "/", none, none, 100, some 50, some 33⟩ :=
  ⟨C7_time_milliseconds_to_seconds.2.1 _ 50 rfl,
   C7_time_milliseconds_to_seconds.2.2.1 _ 33 rfl⟩

/-- C8: the `varnishncsa` format always contains the host field token — the
format builder does not depend on the pinned virtual host at all — and
`parseMessage`, whose call site passes only the line text and the rules,
labels two lines differing only in their host field with two distinct label
combinations (the host label is present in both); so pinning a host never
drops the host label from the schema, contrary to the claim and to the
repository's README. -/
theorem C8_host_label_never_dropped :
    (∀ b s : Bool,
      containsTok (buildVarnishNCSAFormat b s).data ("host=\"%{host}i\"").data = true) ∧
    (∃ mA lA mB lB,
      parseMessage
          "method=\"GET\" status=200 path=\"/x\" cache=\"hit\" host=\"a.example\" time:100" [] =
        .ok (mA, lA) ∧
      parseMessage
          "method=\"GET\" status=200 path=\"/x\" cache=\"hit\" host=\"b.example\" time:100" [] =
        .ok (mB, lB) ∧
      lA.names = lB.names ∧ "host" ∈ lA.names ∧ lA ≠ lB) := by
  constructor
  · decide
  · refine ⟨[⟨"time", ((100 : ℕ) : ℚ) / 1000⟩],
      ⟨[("method", "GET"), ("status", "200"), ("path", "/x"),
        ("cache", "hit"), ("host", "a.example")]⟩,
      [⟨"time", ((100 : ℕ) : ℚ) / 1000⟩],
      ⟨[("method", "GET"), ("status", "200"), ("path", "/x"),
        ("cache", "hit"), ("host", "b.example")]⟩,
      rfl, rfl, rfl, by decide, by decide⟩

/-- C10: an empty mappings-file name short-circuits: the loader returns an
empty rule list with no error, consults no file system state, and the
rewriter over zero rules is the identity. -/
theorem C10_empty_name_no_file_identity :
    (∀ fs : String → Except String String, parseMappingsFile "" fs = .ok []) ∧
    (∀ fs fs' : String → Except String String,
      parseMappingsFile "" fs = parseMappingsFile "" fs') ∧
    (∀ p : String, normalize p [] = p) :=
  ⟨fun _ => rfl, fun _ _ => rfl, fun _ => rfl⟩

/-- C2: per metric identity (name plus label-name set), the registry
creates the collector exactly once — on the first observation — and every
later observation with that identity lands in the same collector, whose
creation stamp, schema and accumulated samples are never replaced or
deleted; an existing entry survives any further observation sequence with
all its history intact. -/
theorem C2_registry_created_once_never_replaced :
    (∀ (obs : List Obs) (name : String) (L : List String),
      (∀ o ∈ obs, o.name = name → o.labels.names = L) →
      (∃ o ∈ obs, o.name = name) →
      ∃ t, (observeAll Registry.empty obs).entries.lookup name =
          some ⟨t, L, (obs.filter fun o => o.name == name).map
            fun o => (o.labels.values, o.value)⟩ ∧
        keyCount (observeAll Registry.empty obs).entries name = 1) ∧
    (∀ (obs : List Obs) (reg : Registry) (name : String) (c : Collector),
      (∀ o ∈ obs, o.name = name → o.labels.names = c.labelNames) →
      reg.entries.lookup name = some c →
      (observeAll reg obs).entries.lookup name =
        some ⟨c.createdAt, c.labelNames,
          c.samples ++ (obs.filter fun o => o.name == name).map
            fun o => (o.labels.values, o.value)⟩) := by
  constructor
  · intro obs name L hcons hmem
    obtain ⟨t, ht⟩ := observeAll_create obs Registry.empty name L hcons rfl hmem
    refine ⟨t, ht, ?_⟩
    rw [observeAll_keyCount_fromNone obs Registry.empty name rfl rfl]
    obtain ⟨o, ho, hname⟩ := hmem
    have hany : obs.any (fun o => o.name == name) = true :=
      List.any_eq_true.mpr ⟨o, ho, by simpa using hname⟩
    rw [if_pos hany]
  · exact fun obs reg name c h1 h2 => observeAll_present obs reg name c h1 h2

/-- Two same-identity observations used to witness C2. -/
def obsPair : List Obs :=
  [⟨"time", ⟨[("method", "GET")]⟩, 5⟩, ⟨"time", ⟨[("method", "POST")]⟩, 7⟩]

/-- Witness for C2: two observations of the same identity produce one
collector holding both samples. -/
theorem C2_witness :
    ∃ t, (observeAll Registry.empty obsPair).entries.lookup "time" =
        some ⟨t, ["method"], [(["GET"], 5), (["POST"], 7)]⟩ ∧
      keyCount (observeAll Registry.empty obsPair).entries "time" = 1 :=
  C2_registry_created_once_never_replaced.1 obsPair "time" ["method"]
    (by intro o ho hn; fin_cases ho <;> rfl)
    ⟨⟨"time", ⟨[("method", "GET")]⟩, 5⟩, by simp [obsPair], rfl⟩

/-- C3: no per-line error stops the loop — the message counter advances by
one per line regardless of outcome, a decode failure only skips that line
(state otherwise untouched) and the loop proceeds to the rest, and a
registration failure for one metric of a line (schema conflict) drops only
that observation while the line's remaining metrics are still recorded. -/
theorem C3_per_line_errors_isolated :
    (∀ (mappings : List pathMapping) (st : LoopState) (lines : List String),
      (runLoop mappings st lines).messages = st.messages + lines.length) ∧
    (∀ (mappings : List pathMapping) (st : LoopState) (line : String)
      (ls : List String) (e : String),
      parseMessage line mappings = .error e →
      ingestStep mappings st line = { st with messages := st.messages + 1 } ∧
      runLoop mappings st (line :: ls) =
        runLoop mappings { st with messages := st.messages + 1 } ls) ∧
    (∀ (reg : Registry) (labels : LabelSet) (m : Metric) (ms : List Metric)
      (c : Collector),
      reg.entries.lookup m.Name = some c → c.labelNames ≠ labels.names →
      observeLine reg labels (m :: ms) = observeLine reg labels ms) := by
  refine ⟨?_, ?_, ?_⟩
  · intro mappings st lines
    induction lines generalizing st with
    | nil => simp [runLoop]
    | cons l ls ih =>
      have hstep : runLoop mappings st (l :: ls) =
          runLoop mappings (ingestStep mappings st l) ls := rfl
      have hmsg : (ingestStep mappings st l).messages = st.messages + 1 := by
        rcases hp : parseMessage l mappings with e | ⟨metrics, labels⟩ <;>
          simp [ingestStep, hp]
      rw [hstep, ih, hmsg]
      simp [List.length_cons]
      omega
  · intro mappings st line ls e he
    have h1 : ingestStep mappings st line = { st with messages := st.messages + 1 } := by
      unfold ingestStep
      rw [he]
    refine ⟨h1, ?_⟩
    have hstep : runLoop mappings st (line :: ls) =
        runLoop mappings (ingestStep mappings st line) ls := rfl
    rw [hstep, h1]
  · intro reg labels m ms c hc hlab
    have hstep : observeLine reg labels (m :: ms) =
        observeLine (observeMetric reg m.Name labels m.Value) labels ms := rfl
    rw [hstep, observeMetric_drop reg m.Name labels m.Value c hc hlab]

/-- A registry seeded with a conflicting schema for `time`, to witness the
sibling-isolation half of C3. -/
def regSeed : Registry := ⟨[("time", ⟨0, ["x"], []⟩)], 1⟩

/-- Witness for C3: a failing line only bumps the message counter, and a
schema-conflicting first metric is dropped while the sibling is attempted. -/
theorem C3_witness :
    ingestStep [] ⟨0, 0, Registry.empty⟩ lineNoStatus =
      { (⟨0, 0, Registry.empty⟩ : LoopState) with messages := 0 + 1 } ∧
    observeLine regSeed ⟨[("method", "GET")]⟩ [⟨"time", 5⟩, ⟨"respsize", 3⟩] =
      observeLine regSeed ⟨[("method", "GET")]⟩ [⟨"respsize", 3⟩] :=
  ⟨(C3_per_line_errors_isolated.2.1 [] ⟨0, 0, Registry.empty⟩ lineNoStatus []
      "missing status" rfl).1,
   C3_per_line_errors_isolated.2.2 regSeed ⟨[("method", "GET")]⟩ ⟨"time", 5⟩
      [⟨"respsize", 3⟩] ⟨0, ["x"], []⟩ rfl (by decide)⟩


lemma compileRules_first_error :
    ∀ rules : List (String × String),
      (∃ pr ∈ rules, compile pr.1 = none) →
      ∃ e, compileRules rules = .error e ∧
        ∃ pr ∈ rules, pr.1 = e ∧ compile pr.1 = none := by
  intro rules
  induction rules with
  | nil =>
    intro h
    obtain ⟨pr, hpr, _⟩ := h
    exact absurd hpr (List.not_mem_nil pr)
  | cons r rest ih =>
    obtain ⟨p, rep⟩ := r
    intro h
    cases hc : compile p with
    | none =>
      refine ⟨p, ?_, (p, rep), by simp, rfl, hc⟩
      unfold compileRules
      rw [hc]
    | some re =>
      obtain ⟨pr, hpr, hfail⟩ := h
      have hpr' : pr ∈ rest := by
        rcases List.mem_cons.mp hpr with he | he
        · rw [he] at hfail
          simp only at hfail
          rw [hfail] at hc
          exact absurd hc (by simp)
        · exact he
      obtain ⟨e, he1, pr', hmem, h3, h4⟩ := ih ⟨pr, hpr', hfail⟩
      refine ⟨e, ?_, pr', List.mem_cons_of_mem _ hmem, h3, h4⟩
      unfold compileRules
      rw [hc, he1]

/-- C5: a mappings file holding a rule whose pattern does not compile is
rejected during loading — the error names the offending rule text — and the
whole program start fails before a single line is ingested; compilation
happens only at load time (rules carry already-compiled patterns), so the
failure cannot surface per line. -/
theorem C5_bad_pattern_rejected_at_load :
    ∀ (content fname : String) (fs : String → Except String String)
      (lines : List String),
      fname ≠ "" → fs fname = .ok content →
      (∃ pr ∈ parseMappingsText content, compile pr.1 = none) →
      ∃ e, parseMappings content = .error e ∧
        (∃ pr ∈ parseMappingsText content, pr.1 = e ∧ compile pr.1 = none) ∧
        runProgram fname fs lines = .error e := by
  intro content fname fs lines hname hfs hbad
  obtain ⟨e, he, hpr⟩ := compileRules_first_error _ hbad
  have hm : parseMappings content = .error e := he
  refine ⟨e, hm, hpr, ?_⟩
  unfold runProgram parseMappingsFile
  rw [if_neg hname, hfs]
  show Except.map _ (parseMappings content) = .error e
  rw [hm]
  rfl

/-- The file system used to witness C5: every name holds a file whose only
rule is the unclosed group `(`. -/
def fsBad : String → Except String String := fun _ => .ok "(\n"

/-- Witness for C5 at a concrete broken mappings file. -/
theorem C5_witness :
    ∃ e, parseMappings "(\n" = .error e ∧
      (∃ pr ∈ parseMappingsText "(\n", pr.1 = e ∧ compile pr.1 = none) ∧
      runProgram "m" fsBad ["x"] = .error e :=
  C5_bad_pattern_rejected_at_load "(\n" "m" fsBad ["x"] (by decide) rfl
    ⟨("(", ""), by decide, by decide⟩

/-- C6: the loader yields exactly one rule per line whose stripped form is
non-empty — a one-column stripped line becomes a delete rule (empty
replacement), a pattern–whitespace–replacement line keeps the remainder
after the first whitespace run as the replacement — and blank or
comment-only lines yield nothing; the file's rules are exactly the
concatenation of the per-line results in order. -/
theorem C6_one_rule_per_nonblank_line :
    ∀ content : String,
      parseMappingsText content = (splitLines content).flatMap lineRule ∧
      ∀ line ∈ splitLines content,
        lineRule line =
          if stripSpecList line.data = [] then []
          else if (stripSpecList line.data).any goIsSpace then
            [(String.mk ((stripSpecList line.data).takeWhile fun c => !goIsSpace c),
              String.mk (((stripSpecList line.data).dropWhile
                fun c => !goIsSpace c).dropWhile goIsSpace))]
          else [(String.mk (stripSpecList line.data), "")] := by
  intro content
  refine ⟨rfl, ?_⟩
  intro line hline
  exact lineRule_char line _ (splitLines_no_newline content line hline) rfl

/-- Witness for C6: a two-column line, a comment line and a one-column line
of a concrete file produce exactly the expected rules. -/
theorem C6_witness : lineRule "a b" = [("a", "b")] := by
  have h := (C6_one_rule_per_nonblank_line "a b\n#c\nx\n").2 "a b" (by decide)
  rw [h]
  decide

lemma hash_not_mem_stripSpecList (l : List Char) : '#' ∉ stripSpecList l := by
  unfold stripSpecList stripMid
  by_cases h : (l.dropWhile goIsSpace).any (fun x => x = '#')
  · rw [if_pos h]
    intro hm
    have hp := List.mem_takeWhile_imp hm
    simp at hp
  · rw [if_neg h]
    intro hm
    have hmu : '#' ∈ l.dropWhile goIsSpace := by
      unfold dropTrailingWs at hm
      have h1 := (List.dropWhile_sublist goIsSpace).subset (List.mem_reverse.mp hm)
      exact List.mem_reverse.mp h1
    have hT : (l.dropWhile goIsSpace).any (fun x => x = '#') = true :=
      List.any_eq_true.mpr ⟨'#', hmu, by simp⟩
    exact h hT

/-- C9: the comment regexp removes everything from the first `#` to the end
of the line wherever that `#` occurs (with the leading-whitespace run also
stripped), not only on lines that start with `#`; consequently no loaded
rule's pattern text or replacement ever contains a `#`. -/
theorem C9_hash_stripped_wherever_it_occurs :
    (∀ (content line : String), line ∈ splitLines content → '#' ∈ line.data →
      stripLine line =
        String.mk ((line.data.dropWhile goIsSpace).takeWhile fun c => c != '#')) ∧
    (∀ (content : String) (pr : String × String), pr ∈ parseMappingsText content →
      '#' ∉ pr.1.data ∧ '#' ∉ pr.2.data) := by
  constructor
  · intro content line hline hhash
    have hnl := splitLines_no_newline content line hline
    rw [stripLine_eq_spec line hnl]
    unfold stripSpecList stripMid
    have hhash' : '#' ∈ line.data.dropWhile goIsSpace := by
      have hsplit := List.takeWhile_append_dropWhile (p := goIsSpace) (l := line.data)
      rw [← hsplit] at hhash
      rcases List.mem_append.mp hhash with h | h
      · have := List.mem_takeWhile_imp h
        rw [goIsSpace_hash] at this
        exact absurd this (by simp)
      · exact h
    have hany : (line.data.dropWhile goIsSpace).any (fun x => x = '#') = true :=
      List.any_eq_true.mpr ⟨'#', hhash', by simp⟩
    rw [if_pos hany]
  · intro content pr hpr
    unfold parseMappingsText at hpr
    obtain ⟨line, hline, hrule⟩ := List.mem_flatMap.mp hpr
    have hnl := splitLines_no_newline content line hline
    rw [lineRule_char line _ hnl rfl] at hrule
    have hnot : '#' ∉ stripSpecList line.data := hash_not_mem_stripSpecList line.data
    by_cases h0 : stripSpecList line.data = []
    · rw [if_pos h0] at hrule
      exact absurd hrule (List.not_mem_nil pr)
    · rw [if_neg h0] at hrule
      by_cases hws : (stripSpecList line.data).any goIsSpace
      · rw [if_pos hws] at hrule
        have hpr' := List.mem_singleton.mp hrule
        subst hpr'
        constructor
        · intro hm
          exact hnot ((List.takeWhile_sublist _).subset hm)
        · intro hm
          exact hnot ((List.dropWhile_sublist _).subset
            ((List.dropWhile_sublist goIsSpace).subset hm))
      · rw [if_neg hws] at hrule
        have hpr' := List.mem_singleton.mp hrule
        subst hpr'
        exact ⟨hnot, by simp⟩

/-- Witness for C9: a mid-line comment after text is removed from the `#`
on, and the rules of a file with mid-line comments are hash-free. -/
theorem C9_witness :
    stripLine "ab#c d" = String.mk (("ab#c d".data.dropWhile goIsSpace).takeWhile
      fun c => c != '#') ∧
    ('#' ∉ ("ab" : String).data ∧ '#' ∉ ("" : String).data) :=
  ⟨C9_hash_stripped_wherever_it_occurs.1 "ab#c d\nx y\n" "ab#c d" (by decide)
      (by decide),
   C9_hash_stripped_wherever_it_occurs.2 "ab#c d\nx y\n" ("ab", "") (by decide)⟩


end VRE
